import Mathlib

/-!
# Feedback proxy worker

A shallow embedding of `src/proxy.js`, the Cloudflare Worker that accepts a
POST request carrying JSON, re-serialises the parsed body, forwards it to a
fixed upstream address and relays the upstream response.

The worker is a single `async fetch(request)` handler.  Everything it calls is
a built-in of the hosting runtime: `request.json()`, `JSON.stringify`, the
global `fetch` and the `Response` constructor.  The built-ins are embedded
from their standards (ECMA-262 for `JSON` and Number-to-String conversion, the
WHATWG Fetch standard for `Response`); the upstream service and the texts of
runtime error messages are parameters.
-/

namespace FeedbackProxy

/-! ## ECMAScript strings -/

/-- An ECMAScript String value: a finite sequence of UTF-16 code units.  The
code units are natural numbers (below `2 ^ 16` in a real string); no definition
below depends on that bound. -/
abbrev JSString := List Nat

/-- UTF-16 encoding of one Unicode scalar value. -/
def utf16 (c : Char) : JSString :=
  if c.toNat < 65536 then [c.toNat]
  else [55296 + (c.toNat - 65536) / 1024, 56320 + (c.toNat - 65536) % 1024]

/-- The ECMAScript String written as a source literal. -/
def js (s : String) : JSString := s.toList.flatMap utf16

/-! ## ECMAScript numbers -/

/-- An ECMAScript Number as `JSON.parse` can produce it: a finite double,
given by its mathematical value, or an infinity.  The two zeros are identified
(as `===` does; `JSON.stringify` prints both as `0`). -/
inductive JSNumber where
  | finite (value : ℚ)
  | infinity (negative : Bool)
deriving DecidableEq

/-- Round a non-negative rational to the nearest integer, ties to even. -/
def roundHalfEven (t : ℚ) : ℤ :=
  if t - ⌊t⌋ < 1 / 2 then ⌊t⌋
  else if 1 / 2 < t - ⌊t⌋ then ⌊t⌋ + 1
  else if ⌊t⌋ % 2 = 0 then ⌊t⌋ else ⌊t⌋ + 1

/-- Binary exponent of the unit in the last place of the doubles around the
positive rational `a`: 53 significant bits, subnormals from `2 ^ (-1074)`. -/
def quantum (a : ℚ) : ℤ := max (Int.log 2 a - 52) (-1074)

/-- The positive rational `a` rounded to the grid of doubles around it:
round-to-nearest, ties to even. -/
def roundToGrid (a : ℚ) : ℚ := (roundHalfEven (a / 2 ^ quantum a) : ℚ) * 2 ^ quantum a

/-- The Number value for a mathematical value (ECMA-262 `𝔽`): IEEE 754
binary64 round-to-nearest, ties to even, overflowing to an infinity from
`2 ^ 1024` on. -/
def numberValueFor (x : ℚ) : JSNumber :=
  if x = 0 then .finite 0
  else if (2 : ℚ) ^ (1024 : ℕ) ≤ roundToGrid |x| then .infinity (decide (x < 0))
  else .finite (if x < 0 then -roundToGrid |x| else roundToGrid |x|)

/-! ## Decimal digits -/

/-- Worker of `decimalDigits`: peel off the least significant digit. -/
def decimalDigitsAux : ℕ → ℕ → List ℕ → List ℕ
  | 0, _, acc => acc
  | fuel + 1, n, acc =>
    if n < 10 then n :: acc else decimalDigitsAux fuel (n / 10) (n % 10 :: acc)

/-- The decimal digits of a natural number, most significant first. -/
def decimalDigits (n : ℕ) : List ℕ := decimalDigitsAux (n + 1) n []

/-- The natural number written by a list of decimal digits. -/
def natOfDigits (ds : List ℕ) : ℕ := ds.foldl (fun a d => 10 * a + d) 0

/-- Code units of a list of decimal digits. -/
def digitUnits (ds : List ℕ) : JSString := ds.map (fun d => 48 + d)

/-- Whether a code unit is an ASCII decimal digit. -/
def isDigit (c : ℕ) : Bool := decide (48 ≤ c) && decide (c ≤ 57)

/-- Split the longest prefix of decimal digits off the input, as digit values. -/
def takeDigits : JSString → List ℕ × JSString
  | [] => ([], [])
  | c :: cs =>
    if isDigit c then ((c - 48) :: (takeDigits cs).1, (takeDigits cs).2)
    else ([], c :: cs)

/-! ## Number-to-String (ECMA-262 `Number::toString`, radix 10) -/

/-- Drop trailing zero digits of `s`, raising the decimal exponent. -/
def stripZeros : ℕ → ℕ → ℤ → ℕ × ℤ
  | 0, s, e => (s, e)
  | fuel + 1, s, e =>
    if s ≠ 0 ∧ s % 10 = 0 then stripZeros fuel (s / 10) (e + 1) else (s, e)

/-- Whether the decimal `s × 10 ^ e` converts back to the double `v`. -/
def readsBack (v : ℚ) (s : ℕ) (e : ℤ) : Bool :=
  decide (numberValueFor ((s : ℚ) * 10 ^ e) = .finite v)

/-- The `k`-digit decimal for `v`, if one reads back as `v`: of the two
`k`-digit neighbours of `v` the one that reads back, the closer one when both
do (the even one on a tie). -/
def candidate (v : ℚ) (k : ℕ) : Option (ℕ × ℤ) :=
  let e : ℤ := Int.log 10 v + 1 - k
  let lo : ℕ := ⌊v / 10 ^ e⌋₊
  let hi : ℕ := lo + 1
  let dlo : ℚ := v - lo * 10 ^ e
  let dhi : ℚ := hi * 10 ^ e - v
  match readsBack v lo e, readsBack v hi e with
  | true, true =>
    if dlo < dhi then some (lo, e)
    else if dhi < dlo then some (hi, e)
    else if lo % 2 = 0 then some (lo, e) else some (hi, e)
  | true, false => some (lo, e)
  | false, true => some (hi, e)
  | false, false => none

/-- Search for the least digit count `k` that has a candidate.  The exact
decimal expansion of a double has at most 767 significant digits and reads
back, so the search ends; the last line is that expansion. -/
def shortestFrom (v : ℚ) : ℕ → ℕ → ℕ × ℤ
  | 0, _ => (⌊v * 10 ^ (1074 : ℕ)⌋₊, -1074)
  | fuel + 1, k =>
    match candidate v k with
    | some r => r
    | none => shortestFrom v fuel (k + 1)

/-- The integers `s` and `e` of `Number::toString` for a positive double `v`:
`s × 10 ^ e` converts to `v`, `s` has as few digits as possible, and `s` does
not end in a zero. -/
def shortestDigits (v : ℚ) : ℕ × ℤ :=
  let r := shortestFrom v 767 1
  stripZeros r.1 r.1 r.2

/-- The decimal exponent part of the scientific form: `e`, sign, digits. -/
def exponentPart (x : ℤ) : JSString :=
  101 :: (if x < 0 then 45 else 43) :: digitUnits (decimalDigits x.natAbs)

/-- The characters of `Number::toString` from the digits `ds` of `s` and
`n = e + k`, where `k` is the number of digits. -/
def layoutDigits (ds : List ℕ) (n : ℤ) : JSString :=
  let k : ℤ := ds.length
  if k ≤ n ∧ n ≤ 21 then
    digitUnits ds ++ List.replicate (n - k).toNat 48
  else if 0 < n ∧ n ≤ 21 then
    digitUnits (ds.take n.toNat) ++ 46 :: digitUnits (ds.drop n.toNat)
  else if -6 < n ∧ n ≤ 0 then
    48 :: 46 :: (List.replicate (-n).toNat 48 ++ digitUnits ds)
  else if ds.length = 1 then
    digitUnits ds ++ exponentPart (n - 1)
  else
    digitUnits (ds.take 1) ++ 46 :: (digitUnits (ds.drop 1) ++ exponentPart (n - 1))

/-- The text of `Number::toString` for a positive double. -/
def positiveToString (v : ℚ) : JSString :=
  let r := shortestDigits v
  let ds := decimalDigits r.1
  layoutDigits ds (r.2 + ds.length)

/-- The built-in `Number::toString(x, 10)`. -/
def Number.toString : JSNumber → JSString
  | .finite v =>
    if v = 0 then [48]
    else if v < 0 then 45 :: positiveToString (-v)
    else positiveToString v
  | .infinity false => js "Infinity"
  | .infinity true => js "-Infinity"

/-! ## JSON values -/

/-- The ECMAScript values `JSON.parse` can return.  An object is the list of
its own properties in property order (`OrdinaryOwnPropertyKeys`). -/
inductive JSONValue where
  | null
  | bool (b : Bool)
  | number (n : JSNumber)
  | string (s : JSString)
  | array (elements : List JSONValue)
  | object (properties : List (JSString × JSONValue))

/-! ## Property order of ordinary objects -/

/-- The array index a property key denotes, if any: a canonical decimal
numeral below `2 ^ 32 - 1`. -/
def arrayIndex (k : JSString) : Option ℕ :=
  let ds := takeDigits k
  if ds.2 = [] ∧ ds.1 ≠ [] ∧ (ds.1.head? ≠ some 0 ∨ ds.1.length = 1)
      ∧ natOfDigits ds.1 < 2 ^ 32 - 1 then
    some (natOfDigits ds.1)
  else none

/-- Whether the object has an own property with key `k`. -/
def hasKey {α : Type} (k : JSString) : List (JSString × α) → Bool
  | [] => false
  | p :: ps => decide (p.1 = k) || hasKey k ps

/-- Overwrite the value of the existing property `k`; its position stays. -/
def replaceProp {α : Type} (k : JSString) (v : α) :
    List (JSString × α) → List (JSString × α)
  | [] => []
  | p :: ps => if p.1 = k then (k, v) :: ps else p :: replaceProp k v ps

/-- Add the new array-index property `k` (index `i`): index keys come first,
in ascending order. -/
def insertIndex {α : Type} (i : ℕ) (k : JSString) (v : α) :
    List (JSString × α) → List (JSString × α)
  | [] => [(k, v)]
  | p :: ps =>
    match arrayIndex p.1 with
    | some j => if j < i then p :: insertIndex i k v ps else (k, v) :: p :: ps
    | none => (k, v) :: p :: ps

/-- The operation `CreateDataProperty` on an ordinary object: overwrite in place, or add the
key (index keys ascending first, string keys in creation order). -/
def setProp {α : Type} (ps : List (JSString × α)) (k : JSString) (v : α) :
    List (JSString × α) :=
  if hasKey k ps then replaceProp k v ps
  else
    match arrayIndex k with
    | some i => insertIndex i k v ps
    | none => ps ++ [(k, v)]

/-- The object built from the members of an object literal, left to right;
a later duplicate key overwrites the earlier value. -/
def buildObject {α : Type} (members : List (JSString × α)) : List (JSString × α) :=
  members.foldl (fun ps m => setProp ps m.1 m.2) []

/-! ## `JSON.parse` (ECMA-262 §25.5.1, the ECMA-404 grammar) -/

/-- JSON white space: tab, line feed, carriage return, space. -/
def isWhiteSpace (c : ℕ) : Bool :=
  decide (c = 9) || decide (c = 10) || decide (c = 13) || decide (c = 32)

/-- Skip leading JSON white space. -/
def skipWS : JSString → JSString
  | [] => []
  | c :: cs => if isWhiteSpace c then skipWS cs else c :: cs

/-- Consume the literal text `p` from the input. -/
def expect : JSString → JSString → Option JSString
  | [], input => some input
  | _ :: _, [] => none
  | a :: p, c :: cs => if a = c then expect p cs else none

/-- Value of a hexadecimal digit, either case. -/
def hexValue (c : ℕ) : Option ℕ :=
  if 48 ≤ c ∧ c ≤ 57 then some (c - 48)
  else if 97 ≤ c ∧ c ≤ 102 then some (c - 87)
  else if 65 ≤ c ∧ c ≤ 70 then some (c - 55)
  else none

/-- The code unit a single-character escape stands for. -/
def unescape (c : ℕ) : Option ℕ :=
  if c = 34 then some 34
  else if c = 92 then some 92
  else if c = 47 then some 47
  else if c = 98 then some 8
  else if c = 102 then some 12
  else if c = 110 then some 10
  else if c = 114 then some 13
  else if c = 116 then some 9
  else none

/-- The four hexadecimal digits of a `\u` escape. -/
def parseHex4 : JSString → Option (ℕ × JSString)
  | h1 :: h2 :: h3 :: h4 :: rest =>
    match hexValue h1, hexValue h2, hexValue h3, hexValue h4 with
    | some a, some b, some c, some d => some (((a * 16 + b) * 16 + c) * 16 + d, rest)
    | _, _, _, _ => none
  | _ => none

/-- Parse a JSON string after its opening quote, up to and including the
closing quote.  The fuel bounds the number of characters and escapes read. -/
def parseString : ℕ → JSString → Option (JSString × JSString)
  | 0, _ => none
  | _ + 1, [] => none
  | fuel + 1, c :: cs =>
    if c = 34 then some ([], cs)
    else if c = 92 then
      match cs with
      | [] => none
      | d :: ds =>
        if d = 117 then
          match parseHex4 ds with
          | none => none
          | some (u, rest) =>
            match parseString fuel rest with
            | none => none
            | some (s, r) => some (u :: s, r)
        else
          match unescape d with
          | none => none
          | some u =>
            match parseString fuel ds with
            | none => none
            | some (s, r) => some (u :: s, r)
    else if c < 32 then none
    else
      match parseString fuel cs with
      | none => none
      | some (s, r) => some (c :: s, r)

/-- The optional fraction of a JSON number: its digits. -/
def parseFraction : JSString → Option (List ℕ × JSString)
  | [] => some ([], [])
  | c :: cs =>
    if c = 46 then
      if (takeDigits cs).1 = [] then none else some (takeDigits cs)
    else some ([], c :: cs)

/-- A run of at least one digit, as a natural number. -/
def parseDigits (input : JSString) : Option (ℕ × JSString) :=
  if (takeDigits input).1 = [] then none
  else some (natOfDigits (takeDigits input).1, (takeDigits input).2)

/-- The optional exponent of a JSON number: its value. -/
def parseExponent : JSString → Option (ℤ × JSString)
  | [] => some (0, [])
  | c :: cs =>
    if c = 101 ∨ c = 69 then
      match cs with
      | [] => none
      | d :: ds =>
        if d = 45 then
          match parseDigits ds with
          | none => none
          | some (x, r) => some (-(x : ℤ), r)
        else if d = 43 then
          match parseDigits ds with
          | none => none
          | some (x, r) => some ((x : ℤ), r)
        else
          match parseDigits (d :: ds) with
          | none => none
          | some (x, r) => some ((x : ℤ), r)
    else some (0, c :: cs)

/-- Parse the unsigned part of a JSON number to its mathematical value. -/
def parseUnsigned (input : JSString) : Option (ℚ × JSString) :=
  let i := takeDigits input
  if i.1 = [] then none
  else if i.1.head? = some 0 ∧ 1 < i.1.length then none
  else
    match parseFraction i.2 with
    | none => none
    | some (f, r2) =>
      match parseExponent r2 with
      | none => none
      | some (x, r3) =>
        some ((natOfDigits (i.1 ++ f) : ℚ) * 10 ^ (x - (f.length : ℤ)), r3)

/-- Parse a JSON number to the Number value of its mathematical value. -/
def parseNumber : JSString → Option (JSNumber × JSString)
  | [] => none
  | c :: cs =>
    if c = 45 then
      match parseUnsigned cs with
      | none => none
      | some (mv, r) => some (numberValueFor (-mv), r)
    else
      match parseUnsigned (c :: cs) with
      | none => none
      | some (mv, r) => some (numberValueFor mv, r)

mutual
/-- Parse one JSON value, skipping white space before it. -/
def parseValue : ℕ → JSString → Option (JSONValue × JSString)
  | 0, _ => none
  | fuel + 1, input =>
    match skipWS input with
    | [] => none
    | c :: cs =>
      if c = 34 then
        match parseString (cs.length + 1) cs with
        | none => none
        | some (s, r) => some (.string s, r)
      else if c = 91 then
        match skipWS cs with
        | [] => none
        | d :: ds =>
          if d = 93 then some (.array [], ds)
          else
            match parseElements fuel (d :: ds) with
            | none => none
            | some (vs, r) => some (.array vs, r)
      else if c = 123 then
        match skipWS cs with
        | [] => none
        | d :: ds =>
          if d = 125 then some (.object [], ds)
          else
            match parseMembers fuel (d :: ds) with
            | none => none
            | some (ms, r) => some (.object (buildObject ms), r)
      else if c = 110 then
        match expect [117, 108, 108] cs with
        | none => none
        | some r => some (.null, r)
      else if c = 116 then
        match expect [114, 117, 101] cs with
        | none => none
        | some r => some (.bool true, r)
      else if c = 102 then
        match expect [97, 108, 115, 101] cs with
        | none => none
        | some r => some (.bool false, r)
      else
        match parseNumber (c :: cs) with
        | none => none
        | some (n, r) => some (.number n, r)
/-- Parse the elements of a non-empty array and its closing bracket. -/
def parseElements : ℕ → JSString → Option (List JSONValue × JSString)
  | 0, _ => none
  | fuel + 1, input =>
    match parseValue fuel input with
    | none => none
    | some (v, r) =>
      match skipWS r with
      | [] => none
      | c :: cs =>
        if c = 44 then
          match parseElements fuel cs with
          | none => none
          | some (vs, r2) => some (v :: vs, r2)
        else if c = 93 then some ([v], cs)
        else none
/-- Parse the members of a non-empty object and its closing brace, in
textual order. -/
def parseMembers : ℕ → JSString → Option (List (JSString × JSONValue) × JSString)
  | 0, _ => none
  | fuel + 1, input =>
    match skipWS input with
    | [] => none
    | q :: qs =>
      if q = 34 then
        match parseString (qs.length + 1) qs with
        | none => none
        | some (k, r0) =>
          match skipWS r0 with
          | [] => none
          | c0 :: r1 =>
            if c0 = 58 then
              match parseValue fuel r1 with
              | none => none
              | some (v, r) =>
                match skipWS r with
                | [] => none
                | c :: cs =>
                  if c = 44 then
                    match parseMembers fuel cs with
                    | none => none
                    | some (ms, r2) => some ((k, v) :: ms, r2)
                  else if c = 125 then some ([(k, v)], cs)
                  else none
            else none
      else none
end

/-- Fuel that lets `parseValue` read any value out of a text of this length
(`parseValue_parseFuel`). -/
def parseFuel (text : JSString) : ℕ := 2 * text.length + 2

/-- The built-in `JSON.parse(text)`: the value of a text that is one JSON value between
optional white space; `none` stands for the `SyntaxError`. -/
def JSON.parse (text : JSString) : Option JSONValue :=
  match parseValue (parseFuel text) text with
  | none => none
  | some (v, rest) => if skipWS rest = [] then some v else none

/-! ## `JSON.stringify` (ECMA-262 §25.5.2, no replacer, no indentation) -/

/-- A lowercase hexadecimal digit. -/
def hexDigit (d : ℕ) : ℕ := if d < 10 then 48 + d else 87 + d

/-- The operation `UnicodeEscape`: `\u` and four lowercase hexadecimal digits. -/
def unicodeEscape (c : ℕ) : JSString :=
  [92, 117, hexDigit (c / 4096 % 16), hexDigit (c / 256 % 16),
    hexDigit (c / 16 % 16), hexDigit (c % 16)]

/-- Whether a code unit is a leading surrogate. -/
def isLeadSurrogate (c : ℕ) : Bool := decide (55296 ≤ c) && decide (c ≤ 56319)

/-- Whether a code unit is a trailing surrogate. -/
def isTrailSurrogate (c : ℕ) : Bool := decide (56320 ≤ c) && decide (c ≤ 57343)

/-- The text `QuoteJSONString` writes for a code point that is one code unit:
the short escapes, `\u` escapes for other control characters and for lone
surrogates, the code unit itself otherwise. -/
def escapeUnit (c : ℕ) : JSString :=
  if c = 8 then [92, 98]
  else if c = 9 then [92, 116]
  else if c = 10 then [92, 110]
  else if c = 12 then [92, 102]
  else if c = 13 then [92, 114]
  else if c = 34 then [92, 34]
  else if c = 92 then [92, 92]
  else if c < 32 ∨ isLeadSurrogate c ∨ isTrailSurrogate c then unicodeEscape c
  else [c]

/-- The inside of `QuoteJSONString`: the string is read by code points, so a
leading surrogate followed by a trailing one is copied as a pair. -/
def quoteUnits : JSString → JSString
  | [] => []
  | [c] => escapeUnit c
  | c :: d :: ds =>
    if isLeadSurrogate c ∧ isTrailSurrogate d then c :: d :: quoteUnits ds
    else escapeUnit c ++ quoteUnits (d :: ds)

/-- The operation `QuoteJSONString`: the quoted text between double quotes. -/
def QuoteJSONString (s : JSString) : JSString := 34 :: (quoteUnits s ++ [34])

mutual
/-- The operation `SerializeJSONProperty` on a value of `JSON.parse`: a non-finite number is
written `null`. -/
def serialize : JSONValue → JSString
  | .null => [110, 117, 108, 108]
  | .bool true => [116, 114, 117, 101]
  | .bool false => [102, 97, 108, 115, 101]
  | .number (.finite v) => Number.toString (.finite v)
  | .number (.infinity _) => [110, 117, 108, 108]
  | .string s => QuoteJSONString s
  | .array vs => 91 :: serializeElements vs
  | .object ps => 123 :: serializeMembers ps
/-- The operation `SerializeJSONArray` after the opening bracket. -/
def serializeElements : List JSONValue → JSString
  | [] => [93]
  | v :: vs =>
    match vs with
    | [] => serialize v ++ [93]
    | _ :: _ => serialize v ++ 44 :: serializeElements vs
/-- The operation `SerializeJSONObject` after the opening brace. -/
def serializeMembers : List (JSString × JSONValue) → JSString
  | [] => [125]
  | (k, v) :: ps =>
    match ps with
    | [] => QuoteJSONString k ++ 58 :: (serialize v ++ [125])
    | _ :: _ => QuoteJSONString k ++ 58 :: (serialize v ++ 44 :: serializeMembers ps)
end

/-- The built-in `JSON.stringify(value)`. -/
def JSON.stringify (value : JSONValue) : JSString := serialize value

/-! ## The runtime: errors, requests, responses -/

/-- A thrown ECMAScript error object: its `name` and its `message`. -/
structure JSError where
  name : JSString
  message : JSString
deriving DecidableEq

/-- A header list: names and values, in order. -/
abbrev Headers := List (JSString × JSString)

/-- The arguments of a call of the global `fetch`: the URL and the `method`,
`headers` and `body` of its init object. -/
structure OutboundRequest where
  url : JSString
  method : JSString
  headers : Headers
  body : JSString
deriving DecidableEq

/-- The response a call of the global `fetch` resolves to: `status`,
`headers` and `body` (`null`, or a stream, given by its bytes). -/
structure UpstreamResponse where
  status : ℕ
  headers : Headers
  body : Option (List ℕ)
deriving DecidableEq

/-- The first argument of `new Response`: a string or a byte stream. -/
inductive BodyInit where
  | text (s : JSString)
  | stream (bytes : List ℕ)
deriving DecidableEq

/-- A constructed `Response`. -/
structure Response where
  status : ℕ
  headers : Headers
  body : Option BodyInit
deriving DecidableEq

/-- The inbound request as the handler can observe it.  `body` is what reading
and decoding the body gives: the text, or the error the read rejects with. -/
structure Request where
  method : JSString
  url : JSString
  headers : Headers
  body : Except JSError JSString

/-- The parts of the hosting runtime the standards leave open: what the
upstream answers to a `fetch` call (a response, or the error the call rejects
with) and the message texts of the errors the built-ins throw. -/
structure Runtime where
  fetch : OutboundRequest → Except JSError UpstreamResponse
  parseErrorMessage : JSString → JSString
  statusErrorMessage : ℕ → JSString
  nullBodyErrorMessage : ℕ → JSString

/-- The method `request.json()`: read the body, then `JSON.parse` the text; a text that
is not JSON rejects with a `SyntaxError`. -/
def Request.json (rt : Runtime) (request : Request) : Except JSError JSONValue :=
  match request.body with
  | .error e => .error e
  | .ok text =>
    match JSON.parse text with
    | some v => .ok v
    | none => .error { name := js "SyntaxError", message := rt.parseErrorMessage text }

/-- A null body status of the Fetch standard. -/
def isNullBodyStatus (s : ℕ) : Bool :=
  decide (s = 101) || decide (s = 103) || decide (s = 204) || decide (s = 205)
    || decide (s = 304)

/-- ASCII lowercase of a code unit. -/
def asciiLower (c : ℕ) : ℕ := if 65 ≤ c ∧ c ≤ 90 then c + 32 else c

/-- Whether the header list contains the name, compared case-insensitively. -/
def hasHeader (name : JSString) (hs : Headers) : Bool :=
  hs.any (fun h => decide (h.1.map asciiLower = name.map asciiLower))

/-- The constructor `new Response(body, { status, headers })` of the Fetch standard: a status
outside 200..599 throws a `RangeError`, a body with a null body status throws
a `TypeError`, and a string body without a `Content-Type` header gets the
type of its text. -/
def newResponse (rt : Runtime) (body : Option BodyInit) (status : ℕ) (headers : Headers) :
    Except JSError Response :=
  if status < 200 ∨ 599 < status then
    .error { name := js "RangeError", message := rt.statusErrorMessage status }
  else if body.isSome ∧ isNullBodyStatus status then
    .error { name := js "TypeError", message := rt.nullBodyErrorMessage status }
  else
    match body with
    | some (.text s) =>
      if hasHeader (js "Content-Type") headers then
        .ok { status := status, headers := headers, body := some (.text s) }
      else
        .ok { status := status
              headers := headers ++ [(js "Content-Type", js "text/plain;charset=UTF-8")]
              body := some (.text s) }
    | b => .ok { status := status, headers := headers, body := b }

/-! ## The handler (`src/proxy.js`) -/

/-- What the handler does to the outside while it runs: it reads the inbound
body (`request.json()`), it calls the upstream (`fetch`). -/
inductive Event where
  | readBody
  | fetch (call : OutboundRequest)
deriving DecidableEq

/-- The outbound calls of a trace. -/
def outboundCalls : List Event → List OutboundRequest
  | [] => []
  | .readBody :: es => outboundCalls es
  | .fetch c :: es => c :: outboundCalls es

/-- The address of line 14. -/
def upstreamURL : JSString := js "http://51.38.54.50:8000/api/feedback"

/-- The `fetch` call of lines 14–20 for the parsed body `requestData`. -/
def forwardCall (requestData : JSONValue) : OutboundRequest :=
  { url := upstreamURL
    method := js "POST"
    headers := [(js "Content-Type", js "application/json")]
    body := JSON.stringify requestData }

/-- Lines 10–26, the `try` block: the response it returns or the error it
throws, and the trace of what it did. -/
def tryBlock (rt : Runtime) (request : Request) : Except JSError Response × List Event :=
  match request.json rt with
  | .error e => (.error e, [.readBody])
  | .ok requestData =>
    match rt.fetch (forwardCall requestData) with
    | .error e => (.error e, [.readBody, .fetch (forwardCall requestData)])
    | .ok response =>
      (newResponse rt (response.body.map .stream) response.status response.headers,
        [.readBody, .fetch (forwardCall requestData)])

/-- Lines 28–33, the `catch` block. -/
def catchBlock (rt : Runtime) (error : JSError) : Except JSError Response :=
  newResponse rt
    (some (.text (JSON.stringify (.object [(js "error", .string error.message)]))))
    500 [(js "Content-Type", js "application/json")]

/-- The handler `fetch(request)` of lines 3–34: the response it returns (or
the error that escapes it) and the trace of what it did. -/
def fetch (rt : Runtime) (request : Request) : Except JSError Response × List Event :=
  if request.method ≠ js "POST" then
    (newResponse rt (some (.text (js "Method not allowed"))) 405 [], [])
  else
    match tryBlock rt request with
    | (.ok response, trace) => (.ok response, trace)
    | (.error error, trace) => (catchBlock rt error, trace)

/-- The response of line 6. -/
def methodNotAllowed : Response :=
  { status := 405
    headers := [(js "Content-Type", js "text/plain;charset=UTF-8")]
    body := some (.text (js "Method not allowed")) }

/-- The response of lines 29–32 for an error with message `m`. -/
def errorResponse (m : JSString) : Response :=
  { status := 500
    headers := [(js "Content-Type", js "application/json")]
    body := some (.text (JSON.stringify (.object [(js "error", .string m)]))) }

/-- The upstream response relayed: lines 23–26. -/
def relayed (response : UpstreamResponse) : Response :=
  { status := response.status
    headers := response.headers
    body := response.body.map .stream }

/-- The inputs `new Response` accepts: a status in 200..599, and no body with
a null body status. -/
def Constructible (response : UpstreamResponse) : Prop :=
  200 ≤ response.status ∧ response.status ≤ 599 ∧
    (response.body.isSome → isNullBodyStatus response.status = false)

/-! ## Sample inputs -/

/-- The answer of the upstream of `sampleRuntime`. -/
def response200 : UpstreamResponse :=
  { status := 200
    headers := [(js "content-type", js "application/json")]
    body := some (js "\x7b\"ok\":true\x7d") }

/-- The messages of a sample runtime, and an upstream that answers every call
with `200` and the body `{"ok":true}` (scenario 2 of the specification). -/
def sampleRuntime : Runtime :=
  { fetch := fun _ => .ok response200
    parseErrorMessage := fun _ => js "Unexpected token"
    statusErrorMessage := fun _ => js "status out of range"
    nullBodyErrorMessage := fun _ => js "null body status" }

/-- The sample runtime with another upstream behaviour. -/
def sampleRuntimeWith (upstream : OutboundRequest → Except JSError UpstreamResponse) :
    Runtime :=
  { sampleRuntime with fetch := upstream }

/-- An upstream answer with the status 600 and no body. -/
def response600 : UpstreamResponse := { status := 600, headers := [], body := none }

/-- An upstream that answers every call with `response600`. -/
def upstream600 : OutboundRequest → Except JSError UpstreamResponse :=
  fun _ => .ok response600

/-- An upstream that cannot be reached: the call rejects. -/
def unreachableUpstream : OutboundRequest → Except JSError UpstreamResponse :=
  fun _ => .error { name := js "TypeError", message := js "Network connection lost" }

/-- Scenario 1: `GET /`. -/
def getRequest : Request :=
  { method := js "GET", url := js "/", headers := [], body := .ok [] }

/-- Scenario 2: a POST with the body `{"rating":5}`. -/
def postRating : Request :=
  { method := js "POST", url := js "/", headers := [], body := .ok (js "\x7b\"rating\":5\x7d") }

/-- The same body sent to another path with credentials in the headers. -/
def postRatingWithCredentials : Request :=
  { method := js "POST"
    url := js "/admin?debug=1"
    headers := [(js "Authorization", js "Bearer secret"), (js "Cookie", js "sid=1")]
    body := .ok (js " \x7b \"rating\" : 5 \x7d ") }

/-- Scenario 3: a POST with the body `not-json`. -/
def postNotJson : Request :=
  { method := js "POST", url := js "/", headers := [], body := .ok (js "not-json") }

/-- The value of the body `{"rating":5}`. -/
def ratingValue : JSONValue := .object [(js "rating", .number (numberValueFor 5))]

/-! ## Predicates of the proofs -/

/-- The input after a run of digits does not go on with a digit. -/
def NoDigitAhead (rest : JSString) : Prop := ∀ c ∈ rest.head?, isDigit c = false

/-- The input after a number does not go on with a digit, a fraction or an
exponent. -/
def NumberEnd (rest : JSString) : Prop :=
  ∀ c ∈ rest.head?, isDigit c = false ∧ c ≠ 46 ∧ c ≠ 101 ∧ c ≠ 69

/-- The rational is the value of a double. -/
def IsDouble (v : ℚ) : Prop := numberValueFor v = .finite v

/-- Property order of two distinct keys: an array index comes before a larger
index and before every other key; other keys keep their creation order. -/
def keyBefore (a b : JSString) : Prop :=
  match arrayIndex a, arrayIndex b with
  | some i, some j => i < j
  | none, some _ => False
  | _, none => True

/-- The keys are distinct and in property order. -/
def CanonicalKeys (ks : List JSString) : Prop :=
  ks.Pairwise (fun a b => a ≠ b ∧ keyBefore a b)

/-- A property list as an ordinary object holds it. -/
def Canonical {α : Type} (ps : List (JSString × α)) : Prop :=
  CanonicalKeys (ps.map Prod.fst)

mutual
/-- No number in the value is an infinity. -/
def allFinite : JSONValue → Bool
  | .null => true
  | .bool _ => true
  | .number (.finite _) => true
  | .number (.infinity _) => false
  | .string _ => true
  | .array vs => allFiniteElements vs
  | .object ps => allFiniteMembers ps
/-- No number in the elements is an infinity. -/
def allFiniteElements : List JSONValue → Bool
  | [] => true
  | v :: vs => allFinite v && allFiniteElements vs
/-- No number in the members is an infinity. -/
def allFiniteMembers : List (JSString × JSONValue) → Bool
  | [] => true
  | (_, v) :: ps => allFinite v && allFiniteMembers ps
end

mutual
/-- The value is one `JSON.parse` builds: its finite numbers are doubles, its
objects hold their properties in property order. -/
def WellFormed : JSONValue → Prop
  | .null => True
  | .bool _ => True
  | .number (.finite v) => IsDouble v
  | .number (.infinity _) => True
  | .string _ => True
  | .array vs => WellFormedElements vs
  | .object ps => Canonical ps ∧ WellFormedMembers ps
/-- Every element is well formed. -/
def WellFormedElements : List JSONValue → Prop
  | [] => True
  | v :: vs => WellFormed v ∧ WellFormedElements vs
/-- Every member's value is well formed. -/
def WellFormedMembers : List (JSString × JSONValue) → Prop
  | [] => True
  | (_, v) :: ps => WellFormed v ∧ WellFormedMembers ps
end

/-! ## Rounding to a double -/

theorem roundHalfEven_intCast (j : ℤ) : roundHalfEven (j : ℚ) = j := by
  simp [roundHalfEven]

theorem roundHalfEven_nonneg {t : ℚ} (ht : 0 ≤ t) : 0 ≤ roundHalfEven t := by
  have h0 : 0 ≤ ⌊t⌋ := Int.floor_nonneg.mpr ht
  unfold roundHalfEven
  split_ifs <;> omega

theorem roundHalfEven_le {t : ℚ} {n : ℤ} (h : t ≤ n) : roundHalfEven t ≤ n := by
  have hf : ⌊t⌋ ≤ n := by
    have : ((⌊t⌋ : ℤ) : ℚ) ≤ n := le_trans (Int.floor_le t) h
    exact_mod_cast this
  have hlt : (0 : ℚ) < t - ⌊t⌋ → ⌊t⌋ + 1 ≤ n := by
    intro hpos
    have : ((⌊t⌋ : ℤ) : ℚ) < n := by linarith
    have : ⌊t⌋ < n := by exact_mod_cast this
    omega
  unfold roundHalfEven
  split_ifs with h1 h2 h3
  · exact hf
  · exact hlt (by linarith)
  · exact hf
  · exact hlt (by linarith)

theorem quantum_ge (a : ℚ) : -1074 ≤ quantum a := le_max_right _ _

theorem div_quantum_lt (a : ℚ) : a / 2 ^ quantum a < 2 ^ (53 : ℕ) := by
  have h2 : (0 : ℚ) < 2 ^ quantum a := zpow_pos (by norm_num) _
  rw [div_lt_iff₀ h2]
  have h1 : a < ((2 : ℕ) : ℚ) ^ (Int.log 2 a + 1) := Int.lt_zpow_succ_log_self (by norm_num) a
  have h3 : ((2 : ℕ) : ℚ) ^ (Int.log 2 a + 1) ≤ 2 ^ (53 : ℕ) * 2 ^ quantum a := by
    have h4 : (2 : ℚ) ^ (53 : ℕ) * 2 ^ quantum a = 2 ^ (53 + quantum a) := by
      rw [zpow_add₀ (by norm_num)]
      norm_num
    rw [h4]
    norm_num only [Nat.cast_ofNat]
    apply zpow_le_zpow_right₀ (by norm_num)
    have : Int.log 2 a - 52 ≤ quantum a := le_max_left _ _
    omega
  exact lt_of_lt_of_le h1 h3

theorem roundToGrid_shape {a : ℚ} (ha : 0 < a) :
    ∃ m : ℕ, m ≤ 2 ^ 53 ∧ roundToGrid a = (m : ℚ) * 2 ^ quantum a := by
  have h2 : (0 : ℚ) < 2 ^ quantum a := zpow_pos (by norm_num) _
  have ht : 0 ≤ a / 2 ^ quantum a := le_of_lt (div_pos ha h2)
  have hm0 := roundHalfEven_nonneg ht
  have hm1 : roundHalfEven (a / 2 ^ quantum a) ≤ 2 ^ 53 := by
    apply roundHalfEven_le
    have := div_quantum_lt a
    push_cast
    exact le_of_lt this
  obtain ⟨m, hm⟩ := Int.eq_ofNat_of_zero_le hm0
  refine ⟨m, ?_, ?_⟩
  · rw [hm] at hm1
    exact_mod_cast hm1
  · unfold roundToGrid
    rw [hm]
    norm_cast

theorem roundToGrid_nonneg {a : ℚ} (ha : 0 < a) : 0 ≤ roundToGrid a := by
  obtain ⟨m, _, hm⟩ := roundToGrid_shape ha
  rw [hm]
  exact mul_nonneg (Nat.cast_nonneg m) (le_of_lt (zpow_pos (by norm_num) _))

/-- A finite result of `numberValueFor` is a 53-bit multiple of a power of two
not below `2 ^ (-1074)`, of magnitude below `2 ^ 1024`. -/
theorem numberValueFor_shape {x v : ℚ} (h : numberValueFor x = .finite v) :
    ∃ m : ℕ, ∃ q : ℤ, -1074 ≤ q ∧ m ≤ 2 ^ 53 ∧ |v| = (m : ℚ) * 2 ^ q ∧
      |v| < 2 ^ (1024 : ℕ) := by
  unfold numberValueFor at h
  split_ifs at h with hx hbig hneg
  · have hv : v = 0 := by injection h with h; exact h.symm
    exact ⟨0, 0, by norm_num, by norm_num, by simp [hv], by simp [hv]⟩
  · have hpos : 0 < |x| := abs_pos.mpr hx
    obtain ⟨m, hm, hs⟩ := roundToGrid_shape hpos
    have hv : |v| = roundToGrid |x| := by
      injection h with h
      rw [← h, abs_neg, abs_of_nonneg (roundToGrid_nonneg hpos)]
    exact ⟨m, quantum |x|, quantum_ge _, hm, by rw [hv, hs], by rw [hv]; exact not_le.mp hbig⟩
  · have hpos : 0 < |x| := abs_pos.mpr hx
    obtain ⟨m, hm, hs⟩ := roundToGrid_shape hpos
    have hv : |v| = roundToGrid |x| := by
      injection h with h
      rw [← h, abs_of_nonneg (roundToGrid_nonneg hpos)]
    exact ⟨m, quantum |x|, quantum_ge _, hm, by rw [hv, hs], by rw [hv]; exact not_le.mp hbig⟩

theorem numberValueFor_of_int_multiple {v : ℚ} (hv : v ≠ 0) (j : ℤ)
    (hj : |v| / 2 ^ quantum |v| = j) (hlt : |v| < 2 ^ (1024 : ℕ)) :
    numberValueFor v = .finite v := by
  have h2 : (0 : ℚ) < 2 ^ quantum |v| := zpow_pos (by norm_num) _
  have hback : roundToGrid |v| = |v| := by
    unfold roundToGrid
    rw [hj, roundHalfEven_intCast, ← hj]
    field_simp
  unfold numberValueFor
  rw [if_neg hv, hback, if_neg (not_le.mpr hlt)]
  congr 1
  split_ifs with hneg
  · rw [abs_of_neg hneg, neg_neg]
  · rw [abs_of_nonneg (not_lt.mp hneg)]

/-- Every value of the shape of a double is a fixed point of the rounding. -/
theorem numberValueFor_of_shape {v : ℚ} (m : ℕ) (q : ℤ) (hq : -1074 ≤ q) (hm : m ≤ 2 ^ 53)
    (hv : |v| = (m : ℚ) * 2 ^ q) (hlt : |v| < 2 ^ (1024 : ℕ)) :
    numberValueFor v = .finite v := by
  by_cases h0 : v = 0
  · simp [h0, numberValueFor]
  have hpos : 0 < |v| := abs_pos.mpr h0
  have h2q : (0 : ℚ) < 2 ^ q := zpow_pos (by norm_num) _
  obtain ⟨Q, hQ⟩ : ∃ Q, Q = quantum |v| := ⟨_, rfl⟩
  have h2 : (0 : ℚ) < 2 ^ Q := zpow_pos (by norm_num) _
  by_cases hle : Q ≤ q
  · -- the quantum divides
    obtain ⟨d, hd⟩ := Int.eq_ofNat_of_zero_le (sub_nonneg.mpr hle)
    apply numberValueFor_of_int_multiple h0 ((m : ℤ) * 2 ^ d) _ hlt
    have hq2 : q = Q + d := by omega
    rw [← hQ, hv, hq2, zpow_add₀ (by norm_num)]
    field_simp
    ring
  · -- the value is the power of two above the 53-bit range
    have hlt2 : q < Q := not_le.mp hle
    have hL : Q = Int.log 2 |v| - 52 := by
      rw [hQ] at hlt2 ⊢
      unfold quantum at hlt2 ⊢
      rcases le_total (Int.log 2 |v| - 52) (-1074) with h | h
      · rw [max_eq_right h] at hlt2
        omega
      · exact max_eq_left h
    have hlog : q + 53 ≤ Int.log 2 |v| := by omega
    have hge : ((2 : ℕ) : ℚ) ^ (q + 53) ≤ |v| :=
      (Int.zpow_le_iff_le_log (by norm_num) hpos).mpr hlog
    have h3 : ((2 : ℕ) : ℚ) ^ q = 2 ^ q := by norm_num
    have hm53 : m = 2 ^ 53 := by
      apply le_antisymm hm
      rw [hv, zpow_add₀ (by norm_num)] at hge
      have : ((2 : ℕ) : ℚ) ^ (53 : ℤ) ≤ m := by
        rw [h3, mul_comm] at hge
        exact le_of_mul_le_mul_right hge h2q
      have h4 : ((2 ^ 53 : ℕ) : ℚ) ≤ m := by
        push_cast
        norm_num at this ⊢
        exact this
      exact_mod_cast h4
    have hv2 : |v| = ((2 : ℕ) : ℚ) ^ (q + 53) := by
      rw [hv, hm53, zpow_add₀ (by norm_num), h3]
      push_cast
      norm_num
      ring
    have hlog2 : Int.log 2 |v| = q + 53 := by
      rw [hv2]
      exact Int.log_zpow (by norm_num) _
    apply numberValueFor_of_int_multiple h0 (2 ^ 52) _ hlt
    rw [← hQ, hL, hlog2, hv2]
    have h5 : q + 53 - 52 = q + 1 := by ring
    rw [h5, zpow_add₀ (by norm_num), zpow_add₀ (by norm_num), h3]
    field_simp
    norm_num
    ring

/-- Rounding is idempotent: a finite result is a double. -/
theorem numberValueFor_idem {x v : ℚ} (h : numberValueFor x = .finite v) :
    numberValueFor v = .finite v := by
  obtain ⟨m, q, hq, hm, hv, hlt⟩ := numberValueFor_shape h
  exact numberValueFor_of_shape m q hq hm hv hlt

theorem numberValueFor_neg {x v : ℚ} (h : numberValueFor x = .finite v) :
    numberValueFor (-x) = .finite (-v) := by
  unfold numberValueFor at h ⊢
  by_cases hx : x = 0
  · simp [hx] at h ⊢
    exact h.symm
  · have hx2 : -x ≠ 0 := neg_ne_zero.mpr hx
    rw [if_neg hx] at h
    rw [if_neg hx2, abs_neg]
    by_cases hbig : (2 : ℚ) ^ (1024 : ℕ) ≤ roundToGrid |x|
    · rw [if_pos hbig] at h
      exact absurd h (by simp)
    · rw [if_neg hbig] at h
      rw [if_neg hbig]
      injection h with h
      congr 1
      rw [← h]
      rcases lt_trichotomy x 0 with hneg | hzero | hpos
      · have : ¬ (-x < 0) := by linarith
        rw [if_pos hneg, if_neg this, neg_neg]
      · exact absurd hzero hx
      · have h1 : -x < 0 := by linarith
        have h2 : ¬ (x < 0) := by linarith
        rw [if_pos h1, if_neg h2]

/-! ## Decimal numerals: writing and reading digits -/

theorem foldl_digits (ds : List ℕ) (a : ℕ) :
    ds.foldl (fun a d => 10 * a + d) a = a * 10 ^ ds.length + natOfDigits ds := by
  induction ds generalizing a with
  | nil => simp [natOfDigits]
  | cons d ds ih =>
    simp only [List.foldl_cons, List.length_cons, natOfDigits]
    rw [ih (10 * a + d), ih (10 * 0 + d)]
    ring

theorem natOfDigits_nil : natOfDigits [] = 0 := rfl

theorem natOfDigits_append (a b : List ℕ) :
    natOfDigits (a ++ b) = natOfDigits a * 10 ^ b.length + natOfDigits b := by
  unfold natOfDigits
  rw [List.foldl_append, foldl_digits]
  rfl

theorem natOfDigits_singleton (d : ℕ) : natOfDigits [d] = d := by
  simp [natOfDigits]

theorem natOfDigits_replicate_zero (k : ℕ) : natOfDigits (List.replicate k 0) = 0 := by
  induction k with
  | zero => rfl
  | succ k ih =>
    rw [List.replicate_succ]
    have := natOfDigits_append [0] (List.replicate k 0)
    simp only [List.singleton_append] at this
    rw [this, ih, natOfDigits_singleton]
    simp

theorem decimalDigitsAux_spec (fuel : ℕ) : ∀ (n : ℕ) (acc : List ℕ), n < fuel →
    ∃ ds, decimalDigitsAux fuel n acc = ds ++ acc ∧ natOfDigits ds = n ∧
      (∀ d ∈ ds, d < 10) ∧ ds ≠ [] ∧ (0 < n → ds.head? ≠ some 0) := by
  induction fuel with
  | zero => intro n acc h; omega
  | succ fuel ih =>
    intro n acc h
    unfold decimalDigitsAux
    by_cases hn : n < 10
    · rw [if_pos hn]
      refine ⟨[n], rfl, natOfDigits_singleton n, ?_, by simp, ?_⟩
      · intro d hd
        simp at hd
        omega
      · intro hpos
        simp
        omega
    · rw [if_neg hn]
      obtain ⟨ds, h1, h2, h3, h4, h5⟩ := ih (n / 10) (n % 10 :: acc) (by omega)
      refine ⟨ds ++ [n % 10], ?_, ?_, ?_, by simp, ?_⟩
      · rw [h1]
        simp
      · rw [natOfDigits_append, h2, natOfDigits_singleton]
        simp
        omega
      · intro d hd
        rcases List.mem_append.mp hd with hd | hd
        · exact h3 d hd
        · simp at hd
          omega
      · intro _
        have h6 := h5 (by omega)
        cases ds with
        | nil => exact absurd rfl h4
        | cons d ds => simpa using h6

theorem decimalDigits_spec (n : ℕ) :
    natOfDigits (decimalDigits n) = n ∧ (∀ d ∈ decimalDigits n, d < 10) ∧
      decimalDigits n ≠ [] ∧ (0 < n → (decimalDigits n).head? ≠ some 0) := by
  obtain ⟨ds, h1, h2, h3, h4, h5⟩ := decimalDigitsAux_spec (n + 1) n [] (by omega)
  unfold decimalDigits
  rw [h1, List.append_nil]
  exact ⟨h2, h3, h4, h5⟩

theorem isDigit_digit {d : ℕ} (h : d < 10) : isDigit (48 + d) = true := by
  simp [isDigit]
  omega

theorem takeDigits_of_noDigit {rest : JSString} (h : NoDigitAhead rest) :
    takeDigits rest = ([], rest) := by
  cases rest with
  | nil => rfl
  | cons c cs =>
    have := h c (by simp)
    simp [takeDigits, this]

theorem takeDigits_digitUnits (ds : List ℕ) (rest : JSString) (h10 : ∀ d ∈ ds, d < 10)
    (hrest : NoDigitAhead rest) : takeDigits (digitUnits ds ++ rest) = (ds, rest) := by
  induction ds with
  | nil => simpa [digitUnits] using takeDigits_of_noDigit hrest
  | cons d ds ih =>
    have hd : d < 10 := h10 d (by simp)
    have ih2 := ih (fun x hx => h10 x (by simp [hx]))
    simp only [digitUnits, List.map_cons, List.cons_append] at ih2 ⊢
    rw [takeDigits, if_pos (isDigit_digit hd), ih2]
    simp

theorem noDigitAhead_cons {c : ℕ} (cs : JSString) (h : isDigit c = false) :
    NoDigitAhead (c :: cs) := by
  intro x hx
  simp at hx
  rw [← hx]
  exact h

theorem parseDigits_digitUnits (ds : List ℕ) (rest : JSString) (h10 : ∀ d ∈ ds, d < 10)
    (hne : ds ≠ []) (hrest : NoDigitAhead rest) :
    parseDigits (digitUnits ds ++ rest) = some (natOfDigits ds, rest) := by
  unfold parseDigits
  rw [takeDigits_digitUnits ds rest h10 hrest]
  simp [hne]

/-! ## Reading back the text of a number -/

theorem numberEnd_noDigit {rest : JSString} (h : NumberEnd rest) : NoDigitAhead rest :=
  fun c hc => (h c hc).1

theorem digitUnits_append (a b : List ℕ) : digitUnits (a ++ b) = digitUnits a ++ digitUnits b := by
  simp [digitUnits]

theorem digitUnits_replicate (k : ℕ) : digitUnits (List.replicate k 0) = List.replicate k 48 := by
  simp [digitUnits]

theorem parseFraction_none {r : JSString} (h : r.head? ≠ some 46) :
    parseFraction r = some ([], r) := by
  cases r with
  | nil => rfl
  | cons c cs =>
    have : c ≠ 46 := by simpa using h
    simp [parseFraction, this]

theorem parseFraction_digits (F : List ℕ) (r : JSString) (hF : F ≠ []) (h10 : ∀ d ∈ F, d < 10)
    (hr : NoDigitAhead r) : parseFraction (46 :: (digitUnits F ++ r)) = some (F, r) := by
  simp [parseFraction, takeDigits_digitUnits F r h10 hr, hF]

theorem parseExponent_none {r : JSString} (h1 : r.head? ≠ some 101) (h2 : r.head? ≠ some 69) :
    parseExponent r = some (0, r) := by
  cases r with
  | nil => rfl
  | cons c cs =>
    have h3 : c ≠ 101 := by simpa using h1
    have h4 : c ≠ 69 := by simpa using h2
    simp [parseExponent, h3, h4]

theorem parseExponent_part (x : ℤ) (r : JSString) (hr : NoDigitAhead r) :
    parseExponent (exponentPart x ++ r) = some (x, r) := by
  obtain ⟨h1, h2, h3, _⟩ := decimalDigits_spec x.natAbs
  have hp := parseDigits_digitUnits (decimalDigits x.natAbs) r h2 h3 hr
  rw [h1] at hp
  by_cases hx : x < 0
  · simp only [exponentPart, if_pos hx, List.cons_append, parseExponent]
    simp [hp, abs_of_neg hx]
  · simp only [exponentPart, if_neg hx, List.cons_append, parseExponent]
    simp [hp, abs_of_nonneg (not_lt.mp hx)]

theorem parseUnsigned_int (I : List ℕ) (tail r : JSString) (x : ℤ) (hI : I ≠ [])
    (h10 : ∀ d ∈ I, d < 10) (hlead : I.head? ≠ some 0 ∨ I.length = 1)
    (hx : parseExponent tail = some (x, r)) (hnd : NoDigitAhead tail)
    (hdot : tail.head? ≠ some 46) :
    parseUnsigned (digitUnits I ++ tail) = some ((natOfDigits I : ℚ) * 10 ^ x, r) := by
  have hl : ¬ (I.head? = some 0 ∧ 1 < I.length) := by
    rintro ⟨h1, h2⟩
    rcases hlead with h | h
    · exact h h1
    · omega
  unfold parseUnsigned
  simp only [takeDigits_digitUnits I tail h10 hnd, if_neg hI, if_neg hl,
    parseFraction_none hdot, hx]
  simp

theorem parseUnsigned_frac (I F : List ℕ) (tail r : JSString) (x : ℤ) (hI : I ≠ [])
    (h10 : ∀ d ∈ I, d < 10) (hlead : I.head? ≠ some 0 ∨ I.length = 1) (hF : F ≠ [])
    (hF10 : ∀ d ∈ F, d < 10) (hx : parseExponent tail = some (x, r))
    (hnd : NoDigitAhead tail) :
    parseUnsigned (digitUnits I ++ 46 :: (digitUnits F ++ tail)) =
      some ((natOfDigits (I ++ F) : ℚ) * 10 ^ (x - (F.length : ℤ)), r) := by
  have hl : ¬ (I.head? = some 0 ∧ 1 < I.length) := by
    rintro ⟨h1, h2⟩
    rcases hlead with h | h
    · exact h h1
    · omega
  have hdotnd : NoDigitAhead (46 :: (digitUnits F ++ tail)) :=
    noDigitAhead_cons _ (by decide)
  unfold parseUnsigned
  simp only [takeDigits_digitUnits I _ h10 hdotnd, if_neg hI, if_neg hl,
    parseFraction_digits F tail hF hF10 hnd, hx]

theorem noDigitAhead_exponentPart (x : ℤ) (r : JSString) :
    NoDigitAhead (exponentPart x ++ r) := by
  unfold exponentPart
  exact noDigitAhead_cons _ (by decide)

theorem head_exponentPart (x : ℤ) (r : JSString) :
    (exponentPart x ++ r).head? ≠ some 46 := by
  simp [exponentPart]

theorem numberEnd_heads {r : JSString} (h : NumberEnd r) :
    r.head? ≠ some 46 ∧ r.head? ≠ some 101 ∧ r.head? ≠ some 69 := by
  cases r with
  | nil => simp
  | cons c cs =>
    obtain ⟨_, h1, h2, h3⟩ := h c (by simp)
    simp [h1, h2, h3]

theorem zpow_ten_natCast (j : ℕ) : (10 : ℚ) ^ (j : ℤ) = ((10 ^ j : ℕ) : ℚ) := by
  rw [zpow_natCast]
  push_cast
  rfl

/-- Every layout of `Number::toString` reads back as the decimal it writes. -/
theorem parseUnsigned_layout (s : ℕ) (e : ℤ) (r : JSString) (hs : 0 < s) (hr : NumberEnd r) :
    parseUnsigned (layoutDigits (decimalDigits s) (e + (decimalDigits s).length) ++ r) =
      some ((s : ℚ) * 10 ^ e, r) := by
  obtain ⟨hval, h10, hne, hhead⟩ := decimalDigits_spec s
  have hhead := hhead hs
  obtain ⟨hdot, he1, he2⟩ := numberEnd_heads hr
  have hnd := (numberEnd_noDigit hr)
  have hexp0 : parseExponent r = some (0, r) := parseExponent_none he1 he2
  generalize hds : decimalDigits s = ds at hval h10 hne hhead ⊢
  have hk : 1 ≤ ds.length := by
    cases ds with
    | nil => exact absurd rfl hne
    | cons d ds => simp
  unfold layoutDigits
  simp only []
  split_ifs with ha hb hc hd
  · -- digits and zeros
    obtain ⟨j, hj⟩ := Int.eq_ofNat_of_zero_le (show 0 ≤ e by omega)
    have hj2 : (e + (ds.length : ℤ) - (ds.length : ℤ)).toNat = j := by
      rw [hj]
      simp
    rw [hj2, ← digitUnits_replicate, ← digitUnits_append]
    have := parseUnsigned_int (ds ++ List.replicate j 0) r r 0 (by simp [hne])
      (by
        intro d hd
        rcases List.mem_append.mp hd with h | h
        · exact h10 d h
        · rw [List.mem_replicate] at h
          omega)
      (by
        left
        cases ds with
        | nil => exact absurd rfl hne
        | cons d ds => simpa using hhead)
      hexp0 hnd hdot
    rw [this, natOfDigits_append, natOfDigits_replicate_zero, hval, hj, zpow_ten_natCast]
    simp
  · -- digits around a decimal point
    have hn : (e + (ds.length : ℤ)).toNat < ds.length := by omega
    have hn0 : 0 < (e + (ds.length : ℤ)).toNat := by omega
    rw [List.append_assoc, List.cons_append]
    have := parseUnsigned_frac (ds.take (e + (ds.length : ℤ)).toNat)
      (ds.drop (e + (ds.length : ℤ)).toNat) r r 0
      (by
        cases ds with
        | nil => exact absurd rfl hne
        | cons d ds =>
          intro h
          rw [List.take_eq_nil_iff] at h
          rcases h with h | h
          · omega
          · exact absurd h (by simp))
      (fun d hd => h10 d (List.mem_of_mem_take hd))
      (by
        left
        cases ds with
        | nil => exact absurd rfl hne
        | cons d ds =>
          obtain ⟨m, hm⟩ : ∃ m, (e + ((d :: ds).length : ℤ)).toNat = m + 1 :=
            ⟨(e + ((d :: ds).length : ℤ)).toNat - 1, by omega⟩
          rw [hm]
          simpa using hhead)
      (by
        intro h
        rw [List.drop_eq_nil_iff] at h
        omega)
      (fun d hd => h10 d (List.mem_of_mem_drop hd))
      hexp0 hnd
    have hx : (0 : ℤ) - ((ds.drop (e + (ds.length : ℤ)).toNat).length : ℤ) = e := by
      rw [List.length_drop]
      omega
    rw [this, List.take_append_drop, hval, hx]
  · -- zeros after the decimal point
    obtain ⟨j, hj⟩ := Int.eq_ofNat_of_zero_le (show 0 ≤ -(e + (ds.length : ℤ)) by omega)
    have hj2 : (-(e + (ds.length : ℤ))).toNat = j := by
      rw [hj]
      simp
    rw [hj2]
    have htext : (48 :: 46 :: (List.replicate j 48 ++ digitUnits ds)) ++ r =
        digitUnits [0] ++ 46 :: (digitUnits (List.replicate j 0 ++ ds) ++ r) := by
      rw [digitUnits_append, digitUnits_replicate]
      simp [digitUnits]
    rw [htext]
    have := parseUnsigned_frac [0] (List.replicate j 0 ++ ds) r r 0 (by simp)
      (by simp) (by right; rfl) (by simp [hne])
      (by
        intro d hd
        rcases List.mem_append.mp hd with h | h
        · rw [List.mem_replicate] at h
          omega
        · exact h10 d h)
      hexp0 hnd
    rw [this]
    have h1 : natOfDigits ([0] ++ (List.replicate j 0 ++ ds)) = s := by
      rw [natOfDigits_append, natOfDigits_append, natOfDigits_replicate_zero, hval]
      simp [natOfDigits]
    have hx : (0 : ℤ) - ((List.replicate j 0 ++ ds).length : ℤ) = e := by
      simp only [List.length_append, List.length_replicate]
      push_cast
      omega
    rw [h1, hx]
  · -- one digit and an exponent
    rw [List.append_assoc]
    have := parseUnsigned_int ds (exponentPart (e + (ds.length : ℤ) - 1) ++ r) r
      (e + (ds.length : ℤ) - 1) hne h10 (Or.inr hd)
      (parseExponent_part _ r hnd) (noDigitAhead_exponentPart _ r) (head_exponentPart _ r)
    have hx : e + (ds.length : ℤ) - 1 = e := by omega
    rw [this, hval, hx]
  · -- a digit, a fraction and an exponent
    have htext : (digitUnits (List.take 1 ds) ++
        46 :: (digitUnits (List.drop 1 ds) ++ exponentPart (e + (ds.length : ℤ) - 1))) ++ r =
        digitUnits (List.take 1 ds) ++
          46 :: (digitUnits (List.drop 1 ds) ++ (exponentPart (e + (ds.length : ℤ) - 1) ++ r)) := by
      simp
    rw [htext]
    have := parseUnsigned_frac (ds.take 1) (ds.drop 1)
      (exponentPart (e + (ds.length : ℤ) - 1) ++ r) r (e + (ds.length : ℤ) - 1)
      (by
        cases ds with
        | nil => exact absurd rfl hne
        | cons d ds => simp)
      (fun d hd => h10 d (List.mem_of_mem_take hd))
      (by
        right
        rw [List.length_take]
        omega)
      (by
        intro h
        rw [List.drop_eq_nil_iff] at h
        omega)
      (fun d hd => h10 d (List.mem_of_mem_drop hd))
      (parseExponent_part _ r hnd) (noDigitAhead_exponentPart _ r)
    have hx : e + (ds.length : ℤ) - 1 - ((ds.drop 1).length : ℤ) = e := by
      rw [List.length_drop]
      omega
    rw [this, List.take_append_drop, hval, hx]

/-! ## Number-to-String and back -/

theorem isDouble_neg {v : ℚ} (h : IsDouble v) : IsDouble (-v) := numberValueFor_neg h

theorem isDouble_zero : IsDouble 0 := by simp [IsDouble, numberValueFor]

theorem stripZeros_value (fuel : ℕ) : ∀ (s : ℕ) (e : ℤ),
    ((stripZeros fuel s e).1 : ℚ) * 10 ^ (stripZeros fuel s e).2 = (s : ℚ) * 10 ^ e := by
  induction fuel with
  | zero => intro s e; rfl
  | succ fuel ih =>
    intro s e
    unfold stripZeros
    split_ifs with h
    · rw [ih, zpow_add₀ (by norm_num), zpow_one]
      have hs : s = 10 * (s / 10) := by omega
      have hq : (s : ℚ) = 10 * ((s / 10 : ℕ) : ℚ) := by exact_mod_cast hs
      conv_rhs => rw [hq]
      ring
    · rfl

theorem stripZeros_pos (fuel : ℕ) : ∀ (s : ℕ) (e : ℤ), 0 < s → 0 < (stripZeros fuel s e).1 := by
  induction fuel with
  | zero => intro s e h; exact h
  | succ fuel ih =>
    intro s e h
    unfold stripZeros
    split_ifs with h1
    · exact ih _ _ (by omega)
    · exact h

theorem candidate_readsBack {v : ℚ} {k : ℕ} {r : ℕ × ℤ} (h : candidate v k = some r) :
    readsBack v r.1 r.2 = true := by
  unfold candidate at h
  simp only [] at h
  split at h
  · rename_i h1 h2
    split_ifs at h <;> injection h with h <;> rw [← h] <;> assumption
  · rename_i h1 h2
    injection h with h
    rw [← h]
    exact h1
  · rename_i h1 h2
    injection h with h
    rw [← h]
    exact h2
  · exact absurd h (by simp)

theorem exact_expansion {v : ℚ} (hv : IsDouble v) (hpos : 0 < v) :
    ((⌊v * 10 ^ (1074 : ℕ)⌋₊ : ℕ) : ℚ) * 10 ^ (-1074 : ℤ) = v := by
  obtain ⟨m, q, hq, _, hm, _⟩ := numberValueFor_shape hv
  rw [abs_of_pos hpos] at hm
  obtain ⟨d, hd⟩ := Int.eq_ofNat_of_zero_le (show 0 ≤ q + 1074 by omega)
  have hq2 : q = d - 1074 := by omega
  have hN : v * 10 ^ (1074 : ℕ) = ((m * 2 ^ d * 5 ^ 1074 : ℕ) : ℚ) := by
    rw [hm, hq2, zpow_sub₀ (by norm_num), zpow_natCast]
    push_cast
    have : (10 : ℚ) ^ (1074 : ℕ) = 2 ^ (1074 : ℕ) * 5 ^ (1074 : ℕ) := by
      rw [← mul_pow]
      norm_num
    rw [this]
    have h2 : (2 : ℚ) ^ (1074 : ℕ) ≠ 0 := by positivity
    field_simp
    ring
  rw [hN, Nat.floor_natCast, ← hN]
  rw [mul_assoc, ← zpow_natCast, ← zpow_add₀ (by norm_num)]
  norm_num

theorem shortestFrom_readsBack {v : ℚ} (hv : IsDouble v) (hpos : 0 < v) (fuel : ℕ) :
    ∀ k, readsBack v (shortestFrom v fuel k).1 (shortestFrom v fuel k).2 = true := by
  induction fuel with
  | zero =>
    intro k
    unfold shortestFrom readsBack
    rw [exact_expansion hv hpos]
    exact decide_eq_true hv
  | succ fuel ih =>
    intro k
    unfold shortestFrom
    cases hc : candidate v k with
    | none => exact ih (k + 1)
    | some r => exact candidate_readsBack hc

theorem shortestDigits_spec {v : ℚ} (hv : IsDouble v) (hpos : 0 < v) :
    numberValueFor (((shortestDigits v).1 : ℚ) * 10 ^ (shortestDigits v).2) = .finite v ∧
      0 < (shortestDigits v).1 := by
  have h := shortestFrom_readsBack hv hpos 767 1
  unfold readsBack at h
  have h := of_decide_eq_true h
  have hs : 0 < (shortestFrom v 767 1).1 := by
    rcases Nat.eq_zero_or_pos (shortestFrom v 767 1).1 with h0 | h0
    · rw [h0] at h
      simp [numberValueFor] at h
      exact absurd h.symm (ne_of_gt hpos)
    · exact h0
  unfold shortestDigits
  simp only []
  rw [stripZeros_value]
  exact ⟨h, stripZeros_pos _ _ _ hs⟩

theorem parseUnsigned_positiveToString {v : ℚ} (hv : IsDouble v) (hpos : 0 < v) (r : JSString)
    (hr : NumberEnd r) : ∃ mv, parseUnsigned (positiveToString v ++ r) = some (mv, r) ∧
      numberValueFor mv = .finite v := by
  obtain ⟨h1, h2⟩ := shortestDigits_spec hv hpos
  exact ⟨_, parseUnsigned_layout _ _ r h2 hr, h1⟩

theorem parseNumber_of_unsigned {t r : JSString} {mv : ℚ}
    (h : parseUnsigned t = some (mv, r)) : parseNumber t = some (numberValueFor mv, r) := by
  cases t with
  | nil => simp [parseUnsigned, takeDigits] at h
  | cons c cs =>
    have hc : c ≠ 45 := by
      intro hc
      rw [hc] at h
      simp [parseUnsigned, takeDigits, isDigit] at h
    simp [parseNumber, hc, h]

/-- The text of a finite double reads back as that double. -/
theorem parseNumber_toString {v : ℚ} (hv : IsDouble v) (r : JSString) (hr : NumberEnd r) :
    parseNumber (Number.toString (.finite v) ++ r) = some (.finite v, r) := by
  simp only [Number.toString]
  split_ifs with h0 hneg
  · obtain ⟨hdot, he1, he2⟩ := numberEnd_heads hr
    have := parseUnsigned_int [0] r r 0 (by simp) (by simp) (Or.inr rfl)
      (parseExponent_none he1 he2) (numberEnd_noDigit hr) hdot
    have h2 := parseNumber_of_unsigned this
    simp only [digitUnits, List.map_cons, List.map_nil] at h2
    rw [h2, h0]
    simp [natOfDigits, numberValueFor]
  · obtain ⟨mv, h1, h2⟩ := parseUnsigned_positiveToString (isDouble_neg hv) (by linarith) r hr
    have h3 := numberValueFor_neg h2
    rw [neg_neg] at h3
    simp [parseNumber, h1, h3]
  · have hpos : 0 < v := lt_of_le_of_ne (not_lt.mp hneg) (Ne.symm h0)
    obtain ⟨mv, h1, h2⟩ := parseUnsigned_positiveToString hv hpos r hr
    rw [parseNumber_of_unsigned h1, h2]

/-! ## `QuoteJSONString` and back -/

theorem hexValue_hexDigit {d : ℕ} (h : d < 16) : hexValue (hexDigit d) = some d := by
  unfold hexDigit hexValue
  by_cases h10 : d < 10
  · rw [if_pos h10, if_pos (by omega)]
    congr 1
    omega
  · rw [if_neg h10, if_neg (by omega), if_pos (by omega)]
    congr 1
    omega

theorem parseHex4_unicodeEscape {c : ℕ} (hc : c < 65536) (t : JSString) :
    parseHex4 (hexDigit (c / 4096 % 16) :: hexDigit (c / 256 % 16) :: hexDigit (c / 16 % 16) ::
      hexDigit (c % 16) :: t) = some (c, t) := by
  have h1 := hexValue_hexDigit (show c / 4096 % 16 < 16 by omega)
  have h2 := hexValue_hexDigit (show c / 256 % 16 < 16 by omega)
  have h3 := hexValue_hexDigit (show c / 16 % 16 < 16 by omega)
  have h4 := hexValue_hexDigit (show c % 16 < 16 by omega)
  simp only [parseHex4, h1, h2, h3, h4, Option.some.injEq, Prod.mk.injEq, and_true]
  omega

theorem escapeUnit_length_pos (c : ℕ) : 0 < (escapeUnit c).length := by
  unfold escapeUnit unicodeEscape
  split_ifs <;> simp

/-- One escaped code unit is read back as that code unit. -/
theorem parseString_escapeUnit (c : ℕ) (t : JSString) (fuel : ℕ) (s r : JSString)
    (h : parseString fuel t = some (s, r)) :
    parseString (fuel + 1) (escapeUnit c ++ t) = some (c :: s, r) := by
  unfold escapeUnit
  split_ifs with h1 h2 h3 h4 h5 h6 h7 h8
  · simp [parseString, unescape, h, h1]
  · simp [parseString, unescape, h, h2]
  · simp [parseString, unescape, h, h3]
  · simp [parseString, unescape, h, h4]
  · simp [parseString, unescape, h, h5]
  · simp [parseString, unescape, h, h6]
  · simp [parseString, unescape, h, h7]
  · have hc : c < 65536 := by
      rcases h8 with h8 | h8 | h8
      · omega
      · simp [isLeadSurrogate] at h8
        omega
      · simp [isTrailSurrogate] at h8
        omega
    simp only [unicodeEscape, List.cons_append, List.nil_append]
    simp [parseString, parseHex4_unicodeEscape hc, h]
  · have h9 : ¬ c < 32 := fun hh => h8 (Or.inl hh)
    simp [parseString, h, h6, h7, h9]

theorem parseString_literal (fuel c : ℕ) (cs s r : JSString) (c1 : c ≠ 34) (c2 : c ≠ 92)
    (c3 : ¬ c < 32) (h : parseString fuel cs = some (s, r)) :
    parseString (fuel + 1) (c :: cs) = some (c :: s, r) := by
  cases cs <;> simp [parseString, c1, c2, c3, h]

theorem quoteUnits_single (c : ℕ) (cs : JSString)
    (h : ∀ d ds, cs = d :: ds → ¬ (isLeadSurrogate c ∧ isTrailSurrogate d)) :
    quoteUnits (c :: cs) = escapeUnit c ++ quoteUnits cs := by
  cases cs with
  | nil => simp [quoteUnits]
  | cons d ds =>
    rw [quoteUnits, if_neg (h d ds rfl)]

/-- A quoted string is read back as the string. -/
theorem parseString_quoteUnits (n : ℕ) : ∀ (s : JSString), s.length ≤ n →
    ∀ (fuel : ℕ) (rest : JSString), (quoteUnits s).length < fuel →
      parseString fuel (quoteUnits s ++ 34 :: rest) = some (s, rest) := by
  induction n with
  | zero =>
    intro s hs fuel rest hf
    have : s = [] := List.length_eq_zero.mp (by omega)
    subst this
    obtain ⟨f, rfl⟩ : ∃ f, fuel = f + 1 := ⟨fuel - 1, by omega⟩
    simp [quoteUnits, parseString]
  | succ n ih =>
    intro s hs fuel rest hf
    obtain ⟨f, rfl⟩ : ∃ f, fuel = f + 1 := ⟨fuel - 1, by omega⟩
    cases s with
    | nil => simp [quoteUnits, parseString]
    | cons c cs =>
      by_cases hp : ∃ d ds, cs = d :: ds ∧ isLeadSurrogate c ∧ isTrailSurrogate d
      · obtain ⟨d, ds, rfl, hl, ht⟩ := hp
        rw [quoteUnits, if_pos ⟨hl, ht⟩] at hf ⊢
        simp only [List.length_cons] at hs hf
        obtain ⟨g, rfl⟩ : ∃ g, f = g + 1 := ⟨f - 1, by omega⟩
        have hrec := ih ds (by omega) g rest (by omega)
        simp only [isLeadSurrogate, isTrailSurrogate, Bool.and_eq_true, decide_eq_true_eq] at hl ht
        have c1 : c ≠ 34 := by omega
        have c2 : c ≠ 92 := by omega
        have c3 : ¬ c < 32 := by omega
        have d1 : d ≠ 34 := by omega
        have d2 : d ≠ 92 := by omega
        have d3 : ¬ d < 32 := by omega
        simp only [List.cons_append]
        exact parseString_literal _ _ _ _ _ c1 c2 c3
          (parseString_literal _ _ _ _ _ d1 d2 d3 hrec)
      · have hq := quoteUnits_single c cs (by
          intro d ds hcs hh
          exact hp ⟨d, ds, hcs, hh.1, hh.2⟩)
        rw [hq] at hf ⊢
        simp only [List.length_cons, List.length_append] at hs hf
        have hpos := escapeUnit_length_pos c
        have hrec := ih cs (by omega) f rest (by omega)
        rw [List.append_assoc]
        exact parseString_escapeUnit c _ f cs rest hrec

/-! ## Array-index keys are canonical numerals -/

theorem takeDigits_spec : ∀ (a : JSString) (ds : List ℕ) (r : JSString),
    takeDigits a = (ds, r) → a = digitUnits ds ++ r ∧ ∀ d ∈ ds, d < 10 := by
  intro a
  induction a with
  | nil =>
    intro ds r h
    simp only [takeDigits, Prod.mk.injEq] at h
    obtain ⟨rfl, rfl⟩ := h
    simp [digitUnits]
  | cons c cs ih =>
    intro ds r h
    unfold takeDigits at h
    by_cases hc : isDigit c = true
    · rw [if_pos hc] at h
      simp only [Prod.mk.injEq] at h
      obtain ⟨rfl, rfl⟩ := h
      obtain ⟨h1, h2⟩ := ih (takeDigits cs).1 (takeDigits cs).2 rfl
      simp only [isDigit, Bool.and_eq_true, decide_eq_true_eq] at hc
      constructor
      · have hc2 : 48 + (c - 48) = c := by omega
        simp only [digitUnits, List.map_cons, List.cons_append, hc2]
        simp only [digitUnits] at h1
        rw [← h1]
      · intro d hd
        rcases List.mem_cons.mp hd with h | h
        · omega
        · exact h2 d h
    · rw [if_neg hc] at h
      simp only [Prod.mk.injEq] at h
      obtain ⟨rfl, rfl⟩ := h
      simp [digitUnits]

theorem natOfDigits_cons (d : ℕ) (t : List ℕ) :
    natOfDigits (d :: t) = d * 10 ^ t.length + natOfDigits t := by
  have := natOfDigits_append [d] t
  rw [natOfDigits_singleton] at this
  simpa using this

theorem natOfDigits_concat (t : List ℕ) (d : ℕ) :
    natOfDigits (t ++ [d]) = 10 * natOfDigits t + d := by
  rw [natOfDigits_append, natOfDigits_singleton]
  simp
  ring

theorem natOfDigits_pos {l : List ℕ} (hne : l ≠ []) (hhead : l.head? ≠ some 0) :
    0 < natOfDigits l := by
  cases l with
  | nil => exact absurd rfl hne
  | cons d t =>
    have hd : d ≠ 0 := by simpa using hhead
    rw [natOfDigits_cons]
    have : 0 < d * 10 ^ t.length := Nat.mul_pos (Nat.pos_of_ne_zero hd) (by positivity)
    omega

theorem head?_concat_of_ne_nil {l : List ℕ} (x : ℕ) (h : l ≠ []) :
    (l ++ [x]).head? = l.head? := by
  cases l with
  | nil => exact absurd rfl h
  | cons d t => rfl

/-- Two numerals without leading zero that denote the same number are equal. -/
theorem digits_unique (a : List ℕ) : ∀ (b : List ℕ), (∀ d ∈ a, d < 10) → (∀ d ∈ b, d < 10) →
    a.head? ≠ some 0 → b.head? ≠ some 0 → natOfDigits a = natOfDigits b → a = b := by
  induction a using List.reverseRecOn with
  | nil =>
    intro b _ _ _ hb h
    by_contra hne
    have := natOfDigits_pos (Ne.symm hne) hb
    rw [← h] at this
    simp [natOfDigits] at this
  | append_singleton a x ih =>
    intro b ha hb hha hhb h
    rcases List.eq_nil_or_concat b with rfl | ⟨b2, y, rfl⟩
    · have := natOfDigits_pos (l := a ++ [x]) (by simp) hha
      rw [h] at this
      simp [natOfDigits] at this
    · rw [natOfDigits_concat, List.concat_eq_append, natOfDigits_concat] at h
      have hx : x < 10 := ha x (by simp)
      have hy : y < 10 := hb y (by simp)
      have hxy : x = y := by omega
      have hn : natOfDigits a = natOfDigits b2 := by omega
      have ha2 : a.head? ≠ some 0 := by
        by_cases hne : a = []
        · simp [hne]
        · rw [← head?_concat_of_ne_nil x hne]
          exact hha
      have hb2 : b2.head? ≠ some 0 := by
        by_cases hne : b2 = []
        · simp [hne]
        · rw [← head?_concat_of_ne_nil y hne]
          simpa using hhb
      have := ih b2 (fun d hd => ha d (by simp [hd])) (fun d hd => hb d (by simp [hd]))
        ha2 hb2 hn
      rw [this, hxy]
      simp

theorem canonical_numeral_unique (a b : List ℕ) (ha : ∀ d ∈ a, d < 10) (hb : ∀ d ∈ b, d < 10)
    (hane : a ≠ []) (hbne : b ≠ []) (hal : a.head? ≠ some 0 ∨ a.length = 1)
    (hbl : b.head? ≠ some 0 ∨ b.length = 1) (h : natOfDigits a = natOfDigits b) : a = b := by
  have zero_case : ∀ l : List ℕ, l ≠ [] → (l.head? ≠ some 0 ∨ l.length = 1) →
      natOfDigits l = 0 → l = [0] := by
    intro l hne hl h0
    rcases hl with hl | hl
    · have := natOfDigits_pos hne hl
      omega
    · cases l with
      | nil => exact absurd rfl hne
      | cons d t =>
        have ht : t = [] := by
          simp only [List.length_cons] at hl
          exact List.length_eq_zero.mp (by omega)
        subst ht
        rw [natOfDigits_singleton] at h0
        rw [h0]
  have head_case : ∀ l : List ℕ, (l.head? ≠ some 0 ∨ l.length = 1) → 0 < natOfDigits l →
      l.head? ≠ some 0 := by
    intro l hl hpos hh
    rcases hl with hl | hl
    · exact hl hh
    · cases l with
      | nil => simp at hh
      | cons d t =>
        have ht : t = [] := by
          simp only [List.length_cons] at hl
          exact List.length_eq_zero.mp (by omega)
        subst ht
        simp only [List.head?_cons, Option.some.injEq] at hh
        rw [hh, natOfDigits_singleton] at hpos
        omega
  rcases Nat.eq_zero_or_pos (natOfDigits a) with h0 | hpos
  · rw [zero_case a hane hal h0, zero_case b hbne hbl (by omega)]
  · exact digits_unique a b ha hb (head_case a hal hpos) (head_case b hbl (by omega)) h

theorem arrayIndex_spec {a : JSString} {i : ℕ} (h : arrayIndex a = some i) :
    ∃ ds, a = digitUnits ds ∧ (∀ d ∈ ds, d < 10) ∧ ds ≠ [] ∧
      (ds.head? ≠ some 0 ∨ ds.length = 1) ∧ natOfDigits ds = i := by
  unfold arrayIndex at h
  simp only [] at h
  split_ifs at h with h1
  obtain ⟨h2, h3, h4, _⟩ := h1
  injection h with h
  obtain ⟨hA, hA10⟩ := takeDigits_spec a _ _ rfl
  rw [h2, List.append_nil] at hA
  exact ⟨_, hA, hA10, h3, h4, h⟩

/-- Distinct keys denote distinct array indices. -/
theorem arrayIndex_inj {a b : JSString} {i : ℕ} (ha : arrayIndex a = some i)
    (hb : arrayIndex b = some i) : a = b := by
  obtain ⟨da, rfl, ha1, ha2, ha3, ha4⟩ := arrayIndex_spec ha
  obtain ⟨db, rfl, hb1, hb2, hb3, hb4⟩ := arrayIndex_spec hb
  rw [canonical_numeral_unique da db ha1 hb1 ha2 hb2 ha3 hb3 (by rw [ha4, hb4])]

/-! ## Property order is kept by `CreateDataProperty` -/

section
variable {α : Type}

theorem keyBefore_of_not_index {a b : JSString} (hb : arrayIndex b = none) : keyBefore a b := by
  unfold keyBefore
  rw [hb]
  cases arrayIndex a <;> trivial

theorem keyBefore_index_index {a b : JSString} {i j : ℕ} (ha : arrayIndex a = some i)
    (hb : arrayIndex b = some j) : keyBefore a b ↔ i < j := by
  unfold keyBefore
  rw [ha, hb]

theorem keyBefore_to_index {a b : JSString} {i : ℕ} (hb : arrayIndex b = some i)
    (h : keyBefore a b) : ∃ j, arrayIndex a = some j ∧ j < i := by
  unfold keyBefore at h
  rw [hb] at h
  cases ha : arrayIndex a with
  | none => rw [ha] at h; exact absurd h (by simp)
  | some j => rw [ha] at h; exact ⟨j, rfl, h⟩

theorem keyBefore_from_not_index {a b : JSString} (ha : arrayIndex a = none)
    (h : keyBefore a b) : arrayIndex b = none := by
  unfold keyBefore at h
  rw [ha] at h
  cases hb : arrayIndex b with
  | none => rfl
  | some j => rw [hb] at h; exact absurd h (by simp)

theorem hasKey_iff (k : JSString) (ps : List (JSString × α)) :
    hasKey k ps = true ↔ k ∈ ps.map Prod.fst := by
  induction ps with
  | nil => simp [hasKey]
  | cons p ps ih =>
    simp only [hasKey, Bool.or_eq_true, decide_eq_true_eq, ih, List.map_cons, List.mem_cons]
    constructor
    · rintro (h | h)
      · exact Or.inl h.symm
      · exact Or.inr h
    · rintro (h | h)
      · exact Or.inl h.symm
      · exact Or.inr h

theorem keys_replaceProp (k : JSString) (v : α) (ps : List (JSString × α)) :
    (replaceProp k v ps).map Prod.fst = ps.map Prod.fst := by
  induction ps with
  | nil => rfl
  | cons p ps ih =>
    unfold replaceProp
    split_ifs with h
    · simp [h]
    · simp [ih]

theorem mem_replaceProp (k : JSString) (v : α) (ps : List (JSString × α)) (q : JSString × α)
    (h : q ∈ replaceProp k v ps) : q = (k, v) ∨ q ∈ ps := by
  induction ps with
  | nil => simp [replaceProp] at h
  | cons p ps ih =>
    unfold replaceProp at h
    split_ifs at h with hk
    · rcases List.mem_cons.mp h with h | h
      · exact Or.inl h
      · exact Or.inr (List.mem_cons_of_mem _ h)
    · rcases List.mem_cons.mp h with h | h
      · exact Or.inr (by simp [h])
      · rcases ih h with h | h
        · exact Or.inl h
        · exact Or.inr (List.mem_cons_of_mem _ h)

theorem mem_insertIndex (i : ℕ) (k : JSString) (v : α) (ps : List (JSString × α))
    (q : JSString × α) (h : q ∈ insertIndex i k v ps) : q = (k, v) ∨ q ∈ ps := by
  induction ps with
  | nil =>
    simp only [insertIndex, List.mem_singleton] at h
    exact Or.inl h
  | cons p ps ih =>
    unfold insertIndex at h
    cases hp : arrayIndex p.1 with
    | none =>
      simp only [hp] at h
      rcases List.mem_cons.mp h with h | h
      · exact Or.inl h
      · exact Or.inr h
    | some j =>
      simp only [hp] at h
      split_ifs at h with hj
      · rcases List.mem_cons.mp h with h | h
        · exact Or.inr (by simp [h])
        · rcases ih h with h | h
          · exact Or.inl h
          · exact Or.inr (List.mem_cons_of_mem _ h)
      · rcases List.mem_cons.mp h with h | h
        · exact Or.inl h
        · exact Or.inr h

theorem mem_setProp (ps : List (JSString × α)) (k : JSString) (v : α) (q : JSString × α)
    (h : q ∈ setProp ps k v) : q = (k, v) ∨ q ∈ ps := by
  unfold setProp at h
  split_ifs at h with hk
  · exact mem_replaceProp k v ps q h
  · cases hi : arrayIndex k with
    | none =>
      simp only [hi] at h
      rcases List.mem_append.mp h with h | h
      · exact Or.inr h
      · exact Or.inl (by simpa using h)
    | some i =>
      simp only [hi] at h
      exact mem_insertIndex i k v ps q h

theorem mem_buildObject (ms : List (JSString × α)) (q : JSString × α)
    (h : q ∈ buildObject ms) : q ∈ ms := by
  have key : ∀ (ms acc : List (JSString × α)),
      q ∈ ms.foldl (fun ps m => setProp ps m.1 m.2) acc → q ∈ acc ∨ q ∈ ms := by
    intro ms
    induction ms with
    | nil => intro acc h; exact Or.inl h
    | cons m ms ih =>
      intro acc h
      rw [List.foldl_cons] at h
      rcases ih _ h with h | h
      · rcases mem_setProp acc m.1 m.2 q h with h | h
        · exact Or.inr (by simp [h])
        · exact Or.inl h
      · exact Or.inr (List.mem_cons_of_mem _ h)
  rcases key ms [] h with h | h
  · simp at h
  · exact h

theorem canonical_insertIndex (i : ℕ) (k : JSString) (v : α) (hi : arrayIndex k = some i)
    (ps : List (JSString × α)) (hc : Canonical ps) (hk : k ∉ ps.map Prod.fst) :
    Canonical (insertIndex i k v ps) := by
  induction ps with
  | nil => simp [insertIndex, Canonical, CanonicalKeys]
  | cons p ps ih =>
    unfold Canonical CanonicalKeys at hc
    rw [List.map_cons, List.pairwise_cons] at hc
    obtain ⟨hp, hps⟩ := hc
    have hkp : k ≠ p.1 := fun h => hk (by simp [h])
    have hkps : k ∉ ps.map Prod.fst := fun h => hk (by simp [h])
    unfold insertIndex
    cases hpi : arrayIndex p.1 with
    | none =>
      simp only []
      unfold Canonical CanonicalKeys
      rw [List.map_cons, List.pairwise_cons]
      refine ⟨?_, ?_⟩
      · intro x hx
        rcases List.mem_cons.mp hx with hx | hx
        · rw [hx]
          exact ⟨hkp, keyBefore_of_not_index hpi⟩
        · refine ⟨fun h => hkps (by rw [show k = x from h]; exact hx), ?_⟩
          exact keyBefore_of_not_index (keyBefore_from_not_index hpi (hp x hx).2)
      · rw [List.map_cons, List.pairwise_cons]
        exact ⟨hp, hps⟩
    | some j =>
      simp only []
      split_ifs with hj
      · unfold Canonical CanonicalKeys
        rw [List.map_cons, List.pairwise_cons]
        refine ⟨?_, ih hps hkps⟩
        intro x hx
        obtain ⟨q, hq, rfl⟩ := List.mem_map.mp hx
        rcases mem_insertIndex i k v ps q hq with h | h
        · rw [h]
          exact ⟨Ne.symm hkp, (keyBefore_index_index hpi hi).mpr hj⟩
        · exact hp q.1 (List.mem_map_of_mem _ h)
      · have hij : i < j := by
          rcases Nat.lt_or_ge i j with h | h
          · exact h
          · have : i = j := by omega
            rw [this] at hi
            exact absurd (arrayIndex_inj hi hpi) hkp
        unfold Canonical CanonicalKeys
        rw [List.map_cons, List.pairwise_cons]
        refine ⟨?_, ?_⟩
        · intro x hx
          rcases List.mem_cons.mp hx with hx | hx
          · rw [hx]
            exact ⟨hkp, (keyBefore_index_index hi hpi).mpr hij⟩
          · refine ⟨fun h => hkps (by rw [show k = x from h]; exact hx), ?_⟩
            have hb := (hp x hx).2
            cases hxi : arrayIndex x with
            | none => exact keyBefore_of_not_index hxi
            | some m =>
              have := (keyBefore_index_index hpi hxi).mp hb
              exact (keyBefore_index_index hi hxi).mpr (by omega)
        · rw [List.map_cons, List.pairwise_cons]
          exact ⟨hp, hps⟩

theorem canonical_setProp (ps : List (JSString × α)) (k : JSString) (v : α)
    (hc : Canonical ps) : Canonical (setProp ps k v) := by
  unfold setProp
  split_ifs with hk
  · unfold Canonical
    rw [keys_replaceProp]
    exact hc
  · have hk2 : k ∉ ps.map Prod.fst := fun h => hk ((hasKey_iff k ps).mpr h)
    cases hi : arrayIndex k with
    | none =>
      simp only []
      unfold Canonical CanonicalKeys
      rw [List.map_append, List.pairwise_append]
      refine ⟨hc, by simp, ?_⟩
      intro a ha b hb
      simp only [List.map_cons, List.map_nil, List.mem_singleton] at hb
      rw [hb]
      exact ⟨fun h => hk2 (h ▸ ha), keyBefore_of_not_index hi⟩
    | some i =>
      simp only []
      exact canonical_insertIndex i k v hi ps hc hk2

theorem canonical_buildObject (ms : List (JSString × α)) : Canonical (buildObject ms) := by
  have key : ∀ (ms acc : List (JSString × α)), Canonical acc →
      Canonical (ms.foldl (fun ps m => setProp ps m.1 m.2) acc) := by
    intro ms
    induction ms with
    | nil => intro acc h; exact h
    | cons m ms ih =>
      intro acc h
      rw [List.foldl_cons]
      exact ih _ (canonical_setProp acc m.1 m.2 h)
  exact key ms [] (by simp [Canonical, CanonicalKeys])

theorem insertIndex_last (i : ℕ) (k : JSString) (v : α) (hi : arrayIndex k = some i)
    (acc : List (JSString × α)) (h : ∀ q ∈ acc, keyBefore q.1 k) :
    insertIndex i k v acc = acc ++ [(k, v)] := by
  induction acc with
  | nil => rfl
  | cons q acc ih =>
    obtain ⟨j, hj, hlt⟩ := keyBefore_to_index hi (h q (by simp))
    unfold insertIndex
    simp only [hj, if_pos hlt, List.cons_append]
    rw [ih (fun x hx => h x (List.mem_cons_of_mem _ hx))]

theorem setProp_last (acc : List (JSString × α)) (p : JSString × α)
    (h : Canonical (acc ++ [p])) : setProp acc p.1 p.2 = acc ++ [p] := by
  unfold Canonical CanonicalKeys at h
  rw [List.map_append, List.pairwise_append] at h
  obtain ⟨_, _, h3⟩ := h
  have h4 : ∀ q ∈ acc, q.1 ≠ p.1 ∧ keyBefore q.1 p.1 := by
    intro q hq
    exact h3 q.1 (List.mem_map_of_mem _ hq) p.1 (by simp)
  have hk : ¬ hasKey p.1 acc = true := by
    rw [hasKey_iff]
    intro hmem
    obtain ⟨q, hq, hq2⟩ := List.mem_map.mp hmem
    exact (h4 q hq).1 hq2
  unfold setProp
  rw [if_neg hk]
  cases hi : arrayIndex p.1 with
  | none => rfl
  | some i =>
    simp only []
    exact insertIndex_last i p.1 p.2 hi acc (fun q hq => (h4 q hq).2)

/-- Building an object from members that are already in property order gives
them back. -/
theorem buildObject_canonical (ps : List (JSString × α)) (h : Canonical ps) :
    buildObject ps = ps := by
  have key : ∀ (ps acc : List (JSString × α)), Canonical (acc ++ ps) →
      ps.foldl (fun qs m => setProp qs m.1 m.2) acc = acc ++ ps := by
    intro ps
    induction ps with
    | nil => intro acc _; simp
    | cons p ps ih =>
      intro acc hc
      rw [List.foldl_cons]
      have hpre : Canonical (acc ++ [p]) := by
        unfold Canonical CanonicalKeys at hc ⊢
        have hsub : List.Sublist ((acc ++ [p]).map Prod.fst) ((acc ++ p :: ps).map Prod.fst) := by
          apply List.Sublist.map
          apply List.Sublist.append_left
          simp
        exact List.Pairwise.sublist hsub hc
      rw [setProp_last acc p hpre, ih (acc ++ [p]) (by simpa using hc)]
      simp
  have := key ps [] (by simpa using h)
  simpa [buildObject] using this

end

/-! ## What `JSON.parse` builds is well formed -/

theorem wellFormedMembers_iff (ps : List (JSString × JSONValue)) :
    WellFormedMembers ps ↔ ∀ p ∈ ps, WellFormed p.2 := by
  induction ps with
  | nil => simp [WellFormedMembers]
  | cons p ps ih =>
    obtain ⟨k, v⟩ := p
    simp only [WellFormedMembers, ih, List.mem_cons, forall_eq_or_imp]

theorem wellFormed_number (x : ℚ) : WellFormed (.number (numberValueFor x)) := by
  cases h : numberValueFor x with
  | finite v =>
    simp only [WellFormed]
    exact numberValueFor_idem h
  | infinity b => simp only [WellFormed]

theorem wellFormed_parseNumber {t r : JSString} {n : JSNumber}
    (h : parseNumber t = some (n, r)) : WellFormed (.number n) := by
  cases t with
  | nil => simp [parseNumber] at h
  | cons c cs =>
    simp only [parseNumber] at h
    split_ifs at h with hc
    · cases hu : parseUnsigned cs with
      | none => simp [hu] at h
      | some p =>
        obtain ⟨mv, r2⟩ := p
        simp only [hu, Option.some.injEq, Prod.mk.injEq] at h
        rw [← h.1]
        exact wellFormed_number _
    · cases hu : parseUnsigned (c :: cs) with
      | none => simp [hu] at h
      | some p =>
        obtain ⟨mv, r2⟩ := p
        simp only [hu, Option.some.injEq, Prod.mk.injEq] at h
        rw [← h.1]
        exact wellFormed_number _

theorem wellFormed_buildObject (ms : List (JSString × JSONValue))
    (h : WellFormedMembers ms) : WellFormed (.object (buildObject ms)) := by
  simp only [WellFormed]
  refine ⟨canonical_buildObject ms, ?_⟩
  rw [wellFormedMembers_iff] at h ⊢
  intro p hp
  exact h p (mem_buildObject ms p hp)

theorem parse_wellFormed_aux (fuel : ℕ) :
    (∀ t v r, parseValue fuel t = some (v, r) → WellFormed v) ∧
    (∀ t vs r, parseElements fuel t = some (vs, r) → WellFormedElements vs) ∧
    (∀ t ms r, parseMembers fuel t = some (ms, r) → WellFormedMembers ms) := by
  induction fuel with
  | zero =>
    refine ⟨?_, ?_, ?_⟩ <;> intro t x r h
    · simp [parseValue] at h
    · simp [parseElements] at h
    · simp [parseMembers] at h
  | succ fuel ih =>
    obtain ⟨ihv, ihe, ihm⟩ := ih
    refine ⟨?_, ?_, ?_⟩
    · intro t v r h
      rw [parseValue] at h
      cases hw : skipWS t with
      | nil => simp [hw] at h
      | cons c cs =>
        simp only [hw] at h
        split_ifs at h with h1 h2 h3 h4 h5 h6
        · cases hs : parseString (cs.length + 1) cs with
          | none => simp [hs] at h
          | some p =>
            obtain ⟨s, r2⟩ := p
            simp only [hs, Option.some.injEq, Prod.mk.injEq] at h
            rw [← h.1]
            simp only [WellFormed]
        · cases hw2 : skipWS cs with
          | nil => simp [hw2] at h
          | cons d ds =>
            simp only [hw2] at h
            split_ifs at h with hd
            · simp only [Option.some.injEq, Prod.mk.injEq] at h
              rw [← h.1]
              simp only [WellFormed, WellFormedElements]
            · cases he : parseElements fuel (d :: ds) with
              | none => simp [he] at h
              | some p =>
                obtain ⟨vs, r2⟩ := p
                simp only [he, Option.some.injEq, Prod.mk.injEq] at h
                rw [← h.1]
                simp only [WellFormed]
                exact ihe _ _ _ he
        · cases hw2 : skipWS cs with
          | nil => simp [hw2] at h
          | cons d ds =>
            simp only [hw2] at h
            split_ifs at h with hd
            · simp only [Option.some.injEq, Prod.mk.injEq] at h
              rw [← h.1]
              simp [WellFormed, WellFormedMembers, Canonical, CanonicalKeys]
            · cases he : parseMembers fuel (d :: ds) with
              | none => simp [he] at h
              | some p =>
                obtain ⟨ms, r2⟩ := p
                simp only [he, Option.some.injEq, Prod.mk.injEq] at h
                rw [← h.1]
                exact wellFormed_buildObject ms (ihm _ _ _ he)
        · cases he : expect [117, 108, 108] cs with
          | none => simp [he] at h
          | some p =>
            simp only [he, Option.some.injEq, Prod.mk.injEq] at h
            rw [← h.1]
            simp only [WellFormed]
        · cases he : expect [114, 117, 101] cs with
          | none => simp [he] at h
          | some p =>
            simp only [he, Option.some.injEq, Prod.mk.injEq] at h
            rw [← h.1]
            simp only [WellFormed]
        · cases he : expect [97, 108, 115, 101] cs with
          | none => simp [he] at h
          | some p =>
            simp only [he, Option.some.injEq, Prod.mk.injEq] at h
            rw [← h.1]
            simp only [WellFormed]
        · cases hn : parseNumber (c :: cs) with
          | none => simp [hn] at h
          | some p =>
            obtain ⟨n, r2⟩ := p
            simp only [hn, Option.some.injEq, Prod.mk.injEq] at h
            rw [← h.1]
            exact wellFormed_parseNumber hn
    · intro t vs r h
      rw [parseElements] at h
      cases hv : parseValue fuel t with
      | none => simp [hv] at h
      | some p =>
        obtain ⟨v, r1⟩ := p
        simp only [hv] at h
        cases hw : skipWS r1 with
        | nil => simp [hw] at h
        | cons c cs =>
          simp only [hw] at h
          split_ifs at h with h1 h2
          · cases he : parseElements fuel cs with
            | none => simp [he] at h
            | some q =>
              obtain ⟨ws, r2⟩ := q
              simp only [he, Option.some.injEq, Prod.mk.injEq] at h
              rw [← h.1]
              simp only [WellFormedElements]
              exact ⟨ihv _ _ _ hv, ihe _ _ _ he⟩
          · simp only [Option.some.injEq, Prod.mk.injEq] at h
            rw [← h.1]
            simp only [WellFormedElements, and_true]
            exact ihv _ _ _ hv
    · intro t ms r h
      rw [parseMembers] at h
      cases hw0 : skipWS t with
      | nil => simp [hw0] at h
      | cons q qs =>
        simp only [hw0] at h
        split_ifs at h with hq
        cases hs : parseString (qs.length + 1) qs with
        | none => simp [hs] at h
        | some p =>
          obtain ⟨k, r0⟩ := p
          simp only [hs] at h
          cases hw1 : skipWS r0 with
          | nil => simp [hw1] at h
          | cons c0 r1 =>
            simp only [hw1] at h
            split_ifs at h with hc0
            cases hv : parseValue fuel r1 with
            | none => simp [hv] at h
            | some p =>
              obtain ⟨v, r2⟩ := p
              simp only [hv] at h
              cases hw : skipWS r2 with
              | nil => simp [hw] at h
              | cons c cs =>
                simp only [hw] at h
                split_ifs at h with h1 h2
                · cases he : parseMembers fuel cs with
                  | none => simp [he] at h
                  | some q =>
                    obtain ⟨ws, r3⟩ := q
                    simp only [he, Option.some.injEq, Prod.mk.injEq] at h
                    rw [← h.1]
                    simp only [WellFormedMembers]
                    exact ⟨ihv _ _ _ hv, ihm _ _ _ he⟩
                · simp only [Option.some.injEq, Prod.mk.injEq] at h
                  rw [← h.1]
                  simp only [WellFormedMembers, and_true]
                  exact ihv _ _ _ hv

/-- Every value of `JSON.parse` is well formed. -/
theorem parse_wellFormed {text : JSString} {v : JSONValue} (h : JSON.parse text = some v) :
    WellFormed v := by
  unfold JSON.parse at h
  cases hp : parseValue (parseFuel text) text with
  | none => simp [hp] at h
  | some p =>
    obtain ⟨w, r⟩ := p
    simp only [hp] at h
    split_ifs at h
    injection h with h
    rw [← h]
    exact (parse_wellFormed_aux _).1 _ _ _ hp

/-! ## `JSON.stringify` and back -/

theorem parseNumber_head {t r : JSString} {n : JSNumber} (h : parseNumber t = some (n, r)) :
    ∃ c cs, t = c :: cs ∧ (c = 45 ∨ isDigit c = true) := by
  cases t with
  | nil => simp [parseNumber] at h
  | cons c cs =>
    refine ⟨c, cs, rfl, ?_⟩
    by_cases hc : c = 45
    · exact Or.inl hc
    · right
      simp only [parseNumber, if_neg hc] at h
      by_contra hd
      simp [parseUnsigned, takeDigits, hd] at h

theorem parseValue_of_number (fuel : ℕ) {t r : JSString} {n : JSNumber}
    (h : parseNumber t = some (n, r)) : parseValue (fuel + 1) t = some (.number n, r) := by
  obtain ⟨c, cs, rfl, hc⟩ := parseNumber_head h
  have hc2 : (c = 45 ∨ (48 ≤ c ∧ c ≤ 57)) := by
    rcases hc with hc | hc
    · exact Or.inl hc
    · simp only [isDigit, Bool.and_eq_true, decide_eq_true_eq] at hc
      exact Or.inr hc
  have hws : isWhiteSpace c = false := by
    simp [isWhiteSpace]
    omega
  have e1 : c ≠ 34 := by omega
  have e2 : c ≠ 91 := by omega
  have e3 : c ≠ 123 := by omega
  have e4 : c ≠ 110 := by omega
  have e5 : c ≠ 116 := by omega
  have e6 : c ≠ 102 := by omega
  rw [parseValue]
  simp [skipWS, hws, e1, e2, e3, e4, e5, e6, h]

theorem numberEnd_nil : NumberEnd [] := by
  intro c hc
  simp at hc

theorem numberEnd_cons (c : ℕ) (cs : JSString) (h : c = 44 ∨ c = 93 ∨ c = 125) :
    NumberEnd (c :: cs) := by
  intro x hx
  simp only [List.head?_cons, Option.mem_def, Option.some.injEq] at hx
  subst hx
  simp [isDigit]
  omega

/-- The text of a value starts with a character that is neither white space
nor a closing bracket. -/
theorem serialize_head (v : JSONValue) (hw : WellFormed v) (hf : allFinite v = true) :
    ∃ c cs, serialize v = c :: cs ∧ isWhiteSpace c = false ∧ c ≠ 93 := by
  cases v with
  | null => exact ⟨110, [117, 108, 108], by simp only [serialize], by decide, by decide⟩
  | bool b =>
    cases b
    · exact ⟨102, [97, 108, 115, 101], by simp only [serialize], by decide, by decide⟩
    · exact ⟨116, [114, 117, 101], by simp only [serialize], by decide, by decide⟩
  | number n =>
    cases n with
    | infinity b => simp [allFinite] at hf
    | finite x =>
      simp only [WellFormed] at hw
      have h := parseNumber_toString hw [] numberEnd_nil
      rw [List.append_nil] at h
      obtain ⟨c, cs, h1, h2⟩ := parseNumber_head h
      refine ⟨c, cs, by simp only [serialize]; exact h1, ?_, ?_⟩
      · rcases h2 with h2 | h2
        · rw [h2]; decide
        · simp only [isDigit, Bool.and_eq_true, decide_eq_true_eq] at h2
          simp [isWhiteSpace]
          omega
      · rcases h2 with h2 | h2
        · rw [h2]; decide
        · simp only [isDigit, Bool.and_eq_true, decide_eq_true_eq] at h2
          omega
  | string s =>
    exact ⟨34, quoteUnits s ++ [34], by simp only [serialize, QuoteJSONString], by decide,
      by decide⟩
  | array vs => exact ⟨91, serializeElements vs, by simp only [serialize], by decide, by decide⟩
  | object ps => exact ⟨123, serializeMembers ps, by simp only [serialize], by decide, by decide⟩

theorem skipWS_cons {c : ℕ} (cs : JSString) (h : isWhiteSpace c = false) :
    skipWS (c :: cs) = c :: cs := by
  simp [skipWS, h]

theorem parseValue_string (fuel : ℕ) (s rest : JSString) :
    parseValue (fuel + 1) (QuoteJSONString s ++ rest) = some (.string s, rest) := by
  have h := parseString_quoteUnits s.length s (le_refl _)
    ((quoteUnits s ++ 34 :: rest).length + 1) rest (by simp; omega)
  rw [parseValue]
  simp only [QuoteJSONString, List.cons_append, List.append_assoc, List.singleton_append,
    List.nil_append]
  rw [skipWS_cons _ (by decide)]
  simp only [if_true, h]

theorem parseMembers_key (k rest : JSString) :
    parseString ((quoteUnits k ++ 34 :: rest).length + 1) (quoteUnits k ++ 34 :: rest) =
      some (k, rest) :=
  parseString_quoteUnits k.length k (le_refl _) _ rest (by simp; omega)

theorem serialize_ne_nil (v : JSONValue) (hw : WellFormed v) (hf : allFinite v = true) :
    1 ≤ (serialize v).length := by
  obtain ⟨c, cs, h, _, _⟩ := serialize_head v hw hf
  rw [h]
  simp

theorem serializeElements_cons_nil (v : JSONValue) :
    serializeElements [v] = serialize v ++ [93] := by
  simp only [serializeElements]

theorem serializeElements_cons_cons (v w : JSONValue) (ws : List JSONValue) :
    serializeElements (v :: w :: ws) = serialize v ++ 44 :: serializeElements (w :: ws) := by
  simp only [serializeElements]

theorem serializeMembers_cons_nil (k : JSString) (v : JSONValue) :
    serializeMembers [(k, v)] = QuoteJSONString k ++ 58 :: (serialize v ++ [125]) := by
  simp only [serializeMembers]

theorem serializeMembers_cons_cons (k : JSString) (v : JSONValue) (q : JSString × JSONValue)
    (ps : List (JSString × JSONValue)) :
    serializeMembers ((k, v) :: q :: ps) =
      QuoteJSONString k ++ 58 :: (serialize v ++ 44 :: serializeMembers (q :: ps)) := by
  simp only [serializeMembers]

theorem serializeElements_head (vs : List JSONValue) (hne : vs ≠ [])
    (hw : WellFormedElements vs) (hf : allFiniteElements vs = true) :
    ∃ c cs, serializeElements vs = c :: cs ∧ isWhiteSpace c = false ∧ c ≠ 93 := by
  cases vs with
  | nil => exact absurd rfl hne
  | cons v vs =>
    simp only [WellFormedElements] at hw
    simp only [allFiniteElements, Bool.and_eq_true] at hf
    obtain ⟨c, cs, h, h1, h2⟩ := serialize_head v hw.1 hf.1
    cases vs with
    | nil => exact ⟨c, cs ++ [93], by rw [serializeElements_cons_nil, h]; rfl, h1, h2⟩
    | cons w ws =>
      exact ⟨c, cs ++ 44 :: serializeElements (w :: ws),
        by rw [serializeElements_cons_cons, h]; rfl, h1, h2⟩

theorem serializeMembers_head (ps : List (JSString × JSONValue)) (hne : ps ≠ []) :
    ∃ cs, serializeMembers ps = 34 :: cs := by
  cases ps with
  | nil => exact absurd rfl hne
  | cons p ps =>
    obtain ⟨k, v⟩ := p
    cases ps with
    | nil => exact ⟨_, by rw [serializeMembers_cons_nil]; rfl⟩
    | cons q qs => exact ⟨_, by rw [serializeMembers_cons_cons]; rfl⟩

theorem parseElements_step_last (fuel : ℕ) (t : JSString) (v : JSONValue) (rest : JSString)
    (h : parseValue fuel t = some (v, 93 :: rest)) :
    parseElements (fuel + 1) t = some ([v], rest) := by
  rw [parseElements]
  simp [h, skipWS, isWhiteSpace]

theorem parseElements_step_more (fuel : ℕ) (t : JSString) (v : JSONValue) (more : JSString)
    (vs : List JSONValue) (rest : JSString) (h : parseValue fuel t = some (v, 44 :: more))
    (h2 : parseElements fuel more = some (vs, rest)) :
    parseElements (fuel + 1) t = some (v :: vs, rest) := by
  rw [parseElements]
  simp [h, h2, skipWS, isWhiteSpace]

theorem parseMembers_step_last (fuel : ℕ) (k t : JSString) (v : JSONValue) (rest : JSString)
    (h : parseValue fuel t = some (v, 125 :: rest)) :
    parseMembers (fuel + 1) (QuoteJSONString k ++ 58 :: t) = some ([(k, v)], rest) := by
  rw [parseMembers]
  simp only [QuoteJSONString, List.cons_append, List.append_assoc, List.singleton_append,
    List.nil_append]
  rw [skipWS_cons _ (by decide)]
  simp only [if_true, parseMembers_key k (58 :: t)]
  simp [h, skipWS, isWhiteSpace]

theorem parseMembers_step_more (fuel : ℕ) (k t : JSString) (v : JSONValue) (more : JSString)
    (ps : List (JSString × JSONValue)) (rest : JSString)
    (h : parseValue fuel t = some (v, 44 :: more))
    (h2 : parseMembers fuel more = some (ps, rest)) :
    parseMembers (fuel + 1) (QuoteJSONString k ++ 58 :: t) = some ((k, v) :: ps, rest) := by
  rw [parseMembers]
  simp only [QuoteJSONString, List.cons_append, List.append_assoc, List.singleton_append,
    List.nil_append]
  rw [skipWS_cons _ (by decide)]
  simp only [if_true, parseMembers_key k (58 :: t)]
  simp [h, h2, skipWS, isWhiteSpace]

theorem parseValue_array (fuel : ℕ) (c : ℕ) (cs : JSString) (vs : List JSONValue)
    (rest : JSString) (hws : isWhiteSpace c = false) (hc : c ≠ 93)
    (h : parseElements fuel (c :: cs) = some (vs, rest)) :
    parseValue (fuel + 1) (91 :: c :: cs) = some (.array vs, rest) := by
  rw [parseValue, skipWS_cons _ (show isWhiteSpace 91 = false by decide)]
  simp only [show (91 : ℕ) ≠ 34 by decide, if_false, if_true]
  rw [skipWS_cons cs hws]
  simp [hc, h]

theorem parseValue_object (fuel : ℕ) (cs : JSString) (ps : List (JSString × JSONValue))
    (rest : JSString) (h : parseMembers fuel (34 :: cs) = some (ps, rest)) :
    parseValue (fuel + 1) (123 :: 34 :: cs) = some (.object (buildObject ps), rest) := by
  rw [parseValue, skipWS_cons _ (show isWhiteSpace 123 = false by decide)]
  simp only [show (123 : ℕ) ≠ 34 by decide, show (123 : ℕ) ≠ 91 by decide, if_false, if_true]
  rw [skipWS_cons cs (show isWhiteSpace 34 = false by decide)]
  simp [h]

/-- The text `JSON.stringify` writes for a well-formed value without an
infinity is read back by the parser as that value, with fuel for twice the
length of the text. -/
theorem parse_serialize_aux (fuel : ℕ) :
    (∀ v rest, WellFormed v → allFinite v = true → NumberEnd rest →
      2 * (serialize v).length ≤ fuel + 1 →
      parseValue fuel (serialize v ++ rest) = some (v, rest)) ∧
    (∀ vs rest, vs ≠ [] → WellFormedElements vs → allFiniteElements vs = true →
      2 * (serializeElements vs).length ≤ fuel + 2 →
      parseElements fuel (serializeElements vs ++ rest) = some (vs, rest)) ∧
    (∀ ps rest, ps ≠ [] → WellFormedMembers ps → allFiniteMembers ps = true →
      2 * (serializeMembers ps).length ≤ fuel + 2 →
      parseMembers fuel (serializeMembers ps ++ rest) = some (ps, rest)) := by
  induction fuel with
  | zero =>
    refine ⟨?_, ?_, ?_⟩
    · intro v rest hw hf _ hlen
      have := serialize_ne_nil v hw hf
      omega
    · intro vs rest hne hw hf hlen
      cases vs with
      | nil => exact absurd rfl hne
      | cons v vs =>
        simp only [WellFormedElements] at hw
        simp only [allFiniteElements, Bool.and_eq_true] at hf
        have h1 := serialize_ne_nil v hw.1 hf.1
        cases vs with
        | nil =>
          rw [serializeElements_cons_nil] at hlen
          simp only [List.length_append, List.length_singleton] at hlen
          omega
        | cons w ws =>
          rw [serializeElements_cons_cons] at hlen
          simp only [List.length_append, List.length_cons] at hlen
          omega
    · intro ps rest hne hw hf hlen
      cases ps with
      | nil => exact absurd rfl hne
      | cons p ps =>
        obtain ⟨k, v⟩ := p
        cases ps with
        | nil =>
          rw [serializeMembers_cons_nil] at hlen
          simp only [QuoteJSONString, List.length_append, List.length_cons,
            List.length_singleton] at hlen
          omega
        | cons q qs =>
          rw [serializeMembers_cons_cons] at hlen
          simp only [QuoteJSONString, List.length_append, List.length_cons] at hlen
          omega
  | succ fuel ih =>
    obtain ⟨ihv, ihe, ihm⟩ := ih
    refine ⟨?_, ?_, ?_⟩
    · intro v rest hw hf hr hlen
      cases v with
      | null => simp [serialize, parseValue, skipWS, isWhiteSpace, expect]
      | bool b => cases b <;> simp [serialize, parseValue, skipWS, isWhiteSpace, expect]
      | number n =>
        cases n with
        | infinity b => simp [allFinite] at hf
        | finite x =>
          simp only [WellFormed] at hw
          simp only [serialize]
          exact parseValue_of_number fuel (parseNumber_toString hw rest hr)
      | string s =>
        simp only [serialize]
        exact parseValue_string fuel s rest
      | array vs =>
        simp only [WellFormed] at hw
        simp only [allFinite] at hf
        simp only [serialize, List.length_cons] at hlen
        simp only [serialize, List.cons_append]
        cases vs with
        | nil => simp [serializeElements, parseValue, skipWS, isWhiteSpace]
        | cons v vs =>
          have hE := ihe (v :: vs) rest (by simp) hw hf (by omega)
          obtain ⟨c, cs, hcs, hws, h93⟩ := serializeElements_head (v :: vs) (by simp) hw hf
          rw [hcs, List.cons_append] at hE ⊢
          exact parseValue_array fuel c _ _ rest hws h93 hE
      | object ps =>
        simp only [WellFormed] at hw
        simp only [allFinite] at hf
        simp only [serialize, List.length_cons] at hlen
        simp only [serialize, List.cons_append]
        cases ps with
        | nil => simp [serializeMembers, parseValue, skipWS, isWhiteSpace]
        | cons p ps =>
          have hM := ihm (p :: ps) rest (by simp) hw.2 hf (by omega)
          obtain ⟨cs, hcs⟩ := serializeMembers_head (p :: ps) (by simp)
          rw [hcs, List.cons_append] at hM ⊢
          have := parseValue_object fuel _ _ rest hM
          rw [buildObject_canonical _ hw.1] at this
          exact this
    · intro vs rest hne hw hf hlen
      cases vs with
      | nil => exact absurd rfl hne
      | cons v vs =>
        simp only [WellFormedElements] at hw
        simp only [allFiniteElements, Bool.and_eq_true] at hf
        cases vs with
        | nil =>
          rw [serializeElements_cons_nil] at hlen ⊢
          simp only [List.length_append, List.length_singleton] at hlen
          rw [List.append_assoc, List.singleton_append]
          exact parseElements_step_last fuel _ v rest
            (ihv v (93 :: rest) hw.1 hf.1 (numberEnd_cons 93 rest (by simp)) (by omega))
        | cons w ws =>
          rw [serializeElements_cons_cons] at hlen ⊢
          simp only [List.length_append, List.length_cons] at hlen
          rw [List.append_assoc, List.cons_append]
          exact parseElements_step_more fuel _ v _ (w :: ws) rest
            (ihv v _ hw.1 hf.1 (numberEnd_cons 44 _ (by simp)) (by omega))
            (ihe (w :: ws) rest (by simp) hw.2 hf.2 (by omega))
    · intro ps rest hne hw hf hlen
      cases ps with
      | nil => exact absurd rfl hne
      | cons p ps =>
        obtain ⟨k, v⟩ := p
        simp only [WellFormedMembers] at hw
        simp only [allFiniteMembers, Bool.and_eq_true] at hf
        cases ps with
        | nil =>
          rw [serializeMembers_cons_nil] at hlen ⊢
          simp only [List.length_append, List.length_cons, List.length_singleton] at hlen
          have htext : (QuoteJSONString k ++ 58 :: (serialize v ++ [125])) ++ rest =
              QuoteJSONString k ++ 58 :: (serialize v ++ 125 :: rest) := by simp
          rw [htext]
          exact parseMembers_step_last fuel k _ v rest
            (ihv v (125 :: rest) hw.1 hf.1 (numberEnd_cons 125 rest (by simp)) (by omega))
        | cons q qs =>
          rw [serializeMembers_cons_cons] at hlen ⊢
          simp only [List.length_append, List.length_cons] at hlen
          have htext : (QuoteJSONString k ++
              58 :: (serialize v ++ 44 :: serializeMembers (q :: qs))) ++ rest =
              QuoteJSONString k ++
                58 :: (serialize v ++ 44 :: (serializeMembers (q :: qs) ++ rest)) := by simp
          rw [htext]
          exact parseMembers_step_more fuel k _ v _ (q :: qs) rest
            (ihv v _ hw.1 hf.1 (numberEnd_cons 44 _ (by simp)) (by omega))
            (ihm (q :: qs) rest (by simp) hw.2 hf.2 (by omega))

/-- The value `JSON.parse(JSON.stringify(v))` is `v` for a well-formed value without an
infinity. -/
theorem parse_stringify_of_wellFormed (v : JSONValue) (hw : WellFormed v)
    (hf : allFinite v = true) : JSON.parse (JSON.stringify v) = some v := by
  have h := (parse_serialize_aux (parseFuel (serialize v))).1 v [] hw hf numberEnd_nil
    (by unfold parseFuel; omega)
  rw [List.append_nil] at h
  unfold JSON.parse JSON.stringify
  rw [h]
  simp [skipWS]

/-! ## Overflow, and the sample values -/

theorem floor_le_roundHalfEven (t : ℚ) : ⌊t⌋ ≤ roundHalfEven t := by
  unfold roundHalfEven
  split_ifs <;> omega

theorem two_zpow_1024 : ((2 : ℕ) : ℚ) ^ (1024 : ℤ) = (2 : ℚ) ^ (1024 : ℕ) := by
  have h : (1024 : ℤ) = ((1024 : ℕ) : ℤ) := by norm_num
  rw [h, zpow_natCast]
  simp only [Nat.cast_ofNat]

/-- From `2 ^ 1024` on a mathematical value converts to `+∞`. -/
theorem numberValueFor_of_large {x : ℚ} (h : (2 : ℚ) ^ (1024 : ℕ) ≤ x) :
    numberValueFor x = .infinity false := by
  have hpos : 0 < x := lt_of_lt_of_le (by positivity) h
  have hx0 : x ≠ 0 := ne_of_gt hpos
  have hlog : (1024 : ℤ) ≤ Int.log 2 x := by
    rw [← Int.zpow_le_iff_le_log (by norm_num) hpos]
    rw [two_zpow_1024]
    exact h
  have hq : quantum x = Int.log 2 x - 52 := by
    unfold quantum
    exact max_eq_left (by omega)
  have h2 : (0 : ℚ) < 2 ^ quantum x := zpow_pos (by norm_num) _
  have hlow : ((2 : ℕ) : ℚ) ^ Int.log 2 x ≤ x := Int.zpow_log_le_self (by norm_num) hpos
  have hsplit : ((2 : ℕ) : ℚ) ^ Int.log 2 x = 2 ^ (52 : ℕ) * 2 ^ quantum x := by
    rw [hq]
    have : Int.log 2 x = 52 + (Int.log 2 x - 52) := by ring
    conv_lhs => rw [this]
    rw [zpow_add₀ (by norm_num)]
    norm_num
  have ht : (2 : ℚ) ^ (52 : ℕ) ≤ x / 2 ^ quantum x := by
    rw [le_div_iff₀ h2, ← hsplit]
    exact hlow
  have hfloor : (2 : ℤ) ^ (52 : ℕ) ≤ ⌊x / 2 ^ quantum x⌋ := by
    rw [Int.le_floor]
    push_cast
    exact ht
  have hr : (2 : ℤ) ^ (52 : ℕ) ≤ roundHalfEven (x / 2 ^ quantum x) :=
    le_trans hfloor (floor_le_roundHalfEven _)
  have hgrid : (2 : ℚ) ^ (1024 : ℕ) ≤ roundToGrid x := by
    unfold roundToGrid
    have h3 : (2 : ℚ) ^ (52 : ℕ) * 2 ^ quantum x ≤
        (roundHalfEven (x / 2 ^ quantum x) : ℚ) * 2 ^ quantum x := by
      apply mul_le_mul_of_nonneg_right _ (le_of_lt h2)
      exact_mod_cast hr
    refine le_trans ?_ h3
    rw [← hsplit]
    rw [← two_zpow_1024]
    exact zpow_le_zpow_right₀ (by norm_num) hlog
  unfold numberValueFor
  rw [if_neg hx0, abs_of_pos hpos, if_pos hgrid]
  simp [not_lt.mpr (le_of_lt hpos)]

theorem isDouble_natCast (n : ℕ) (h : n ≤ 2 ^ 53) : IsDouble (n : ℚ) := by
  apply numberValueFor_of_shape n 0 (by norm_num) h
  · simp
  · rw [abs_of_nonneg (Nat.cast_nonneg n)]
    have h1 : (n : ℚ) ≤ ((2 ^ 53 : ℕ) : ℚ) := by exact_mod_cast h
    have h2 : ((2 ^ 53 : ℕ) : ℚ) < 2 ^ (1024 : ℕ) := by
      simp only [Nat.cast_pow, Nat.cast_ofNat]
      exact pow_lt_pow_right₀ (by norm_num : (1 : ℚ) < 2) (by norm_num : 53 < 1024)
    exact lt_of_le_of_lt h1 h2

theorem numberValueFor_five : numberValueFor 5 = .finite 5 := by
  have := isDouble_natCast 5 (by norm_num)
  simpa [IsDouble] using this

/-- The text `1e400` is valid JSON and its value is `+∞`. -/
theorem parse_1e400 : JSON.parse (js "1e400") = some (.number (.infinity false)) := by
  have h : js "1e400" = [49, 101, 52, 48, 48] := by decide
  have h3 : parseUnsigned [49, 101, 52, 48, 48] = some ((1 : ℚ) * 10 ^ (400 : ℤ), []) := by
    simp [parseUnsigned, takeDigits, isDigit, parseFraction, parseExponent, parseDigits,
      natOfDigits]
  have h4 : numberValueFor ((10 : ℚ) ^ (400 : ℕ)) = .infinity false := by
    apply numberValueFor_of_large
    calc (2 : ℚ) ^ (1024 : ℕ) ≤ 2 ^ (1200 : ℕ) :=
          pow_le_pow_right₀ (by norm_num) (by norm_num)
      _ = 8 ^ (400 : ℕ) := by
          rw [show (8 : ℚ) = 2 ^ (3 : ℕ) by norm_num, ← pow_mul]
      _ ≤ 10 ^ (400 : ℕ) := pow_le_pow_left₀ (by norm_num) (by norm_num) 400
  rw [h]
  simp [JSON.parse, parseFuel, parseValue, skipWS, isWhiteSpace, parseNumber, h3]
  have h5 : (10 : ℚ) ^ (400 : ℤ) = (10 : ℚ) ^ (400 : ℕ) := by
    have h6 : (400 : ℤ) = ((400 : ℕ) : ℤ) := by norm_num
    rw [h6, zpow_natCast]
  rw [h5]
  exact h4

/-! ## The parser consumes its input -/

theorem skipWS_length (t : JSString) : (skipWS t).length ≤ t.length := by
  induction t with
  | nil => simp [skipWS]
  | cons c cs ih =>
    unfold skipWS
    split_ifs
    · simp only [List.length_cons]
      omega
    · exact le_refl _

theorem takeDigits_length (t : JSString) :
    (takeDigits t).1.length + (takeDigits t).2.length = t.length := by
  obtain ⟨h, _⟩ := takeDigits_spec t _ _ rfl
  conv_rhs => rw [h]
  simp [digitUnits]

theorem parseFraction_length {t r : JSString} {f : List ℕ}
    (h : parseFraction t = some (f, r)) : r.length ≤ t.length := by
  cases t with
  | nil =>
    simp only [parseFraction, Option.some.injEq, Prod.mk.injEq] at h
    rw [← h.2]
  | cons c cs =>
    simp only [parseFraction] at h
    split_ifs at h with h1 h2
    · simp only [Option.some.injEq] at h
      have := takeDigits_length cs
      rw [h] at this
      simp only [List.length_cons]
      simp only at this
      omega
    · simp only [Option.some.injEq, Prod.mk.injEq] at h
      rw [← h.2]

theorem parseDigits_length {t r : JSString} {x : ℕ}
    (h : parseDigits t = some (x, r)) : r.length < t.length := by
  unfold parseDigits at h
  split_ifs at h with h1
  simp only [Option.some.injEq, Prod.mk.injEq] at h
  have := takeDigits_length t
  have hpos : 0 < (takeDigits t).1.length := List.length_pos.mpr h1
  rw [← h.2]
  omega

theorem parseExponent_length {t r : JSString} {x : ℤ}
    (h : parseExponent t = some (x, r)) : r.length ≤ t.length := by
  cases t with
  | nil =>
    simp only [parseExponent, Option.some.injEq, Prod.mk.injEq] at h
    rw [← h.2]
  | cons c cs =>
    simp only [parseExponent] at h
    split_ifs at h with h1
    · cases cs with
      | nil => simp at h
      | cons d ds =>
        simp only at h
        split_ifs at h with h2 h3
        · cases hp : parseDigits ds with
          | none => simp [hp] at h
          | some p =>
            obtain ⟨y, r2⟩ := p
            simp only [hp, Option.some.injEq, Prod.mk.injEq] at h
            have := parseDigits_length hp
            rw [← h.2]
            simp only [List.length_cons]
            omega
        · cases hp : parseDigits ds with
          | none => simp [hp] at h
          | some p =>
            obtain ⟨y, r2⟩ := p
            simp only [hp, Option.some.injEq, Prod.mk.injEq] at h
            have := parseDigits_length hp
            rw [← h.2]
            simp only [List.length_cons]
            omega
        · cases hp : parseDigits (d :: ds) with
          | none => simp [hp] at h
          | some p =>
            obtain ⟨y, r2⟩ := p
            simp only [hp, Option.some.injEq, Prod.mk.injEq] at h
            have := parseDigits_length hp
            rw [← h.2]
            simp only [List.length_cons] at this ⊢
            omega
    · simp only [Option.some.injEq, Prod.mk.injEq] at h
      rw [← h.2]

theorem parseUnsigned_length {t r : JSString} {mv : ℚ}
    (h : parseUnsigned t = some (mv, r)) : r.length < t.length := by
  unfold parseUnsigned at h
  simp only at h
  split_ifs at h with h1 h2
  cases hf : parseFraction (takeDigits t).2 with
  | none => simp [hf] at h
  | some p =>
    obtain ⟨f, r2⟩ := p
    simp only [hf] at h
    cases hx : parseExponent r2 with
    | none => simp [hx] at h
    | some q =>
      obtain ⟨x, r3⟩ := q
      simp only [hx, Option.some.injEq, Prod.mk.injEq] at h
      have a1 := takeDigits_length t
      have a2 : 0 < (takeDigits t).1.length := List.length_pos.mpr h1
      have a3 := parseFraction_length hf
      have a4 := parseExponent_length hx
      rw [← h.2]
      omega

theorem parseNumber_length {t r : JSString} {n : JSNumber}
    (h : parseNumber t = some (n, r)) : r.length < t.length := by
  cases t with
  | nil => simp [parseNumber] at h
  | cons c cs =>
    simp only [parseNumber] at h
    split_ifs at h with hc
    · cases hu : parseUnsigned cs with
      | none => simp [hu] at h
      | some p =>
        obtain ⟨mv, r2⟩ := p
        simp only [hu, Option.some.injEq, Prod.mk.injEq] at h
        have := parseUnsigned_length hu
        rw [← h.2]
        simp only [List.length_cons]
        omega
    · cases hu : parseUnsigned (c :: cs) with
      | none => simp [hu] at h
      | some p =>
        obtain ⟨mv, r2⟩ := p
        simp only [hu, Option.some.injEq, Prod.mk.injEq] at h
        have := parseUnsigned_length hu
        rw [← h.2]
        exact this

theorem expect_length (p : JSString) : ∀ (t r : JSString), expect p t = some r →
    r.length ≤ t.length := by
  induction p with
  | nil =>
    intro t r h
    simp only [expect, Option.some.injEq] at h
    rw [h]
  | cons a p ih =>
    intro t r h
    cases t with
    | nil => simp [expect] at h
    | cons c cs =>
      unfold expect at h
      split_ifs at h with hc
      have := ih cs r h
      simp only [List.length_cons]
      omega

theorem parseHex4_length {t r : JSString} {u : ℕ} (h : parseHex4 t = some (u, r)) :
    r.length < t.length := by
  match t, h with
  | h1 :: h2 :: h3 :: h4 :: rest, h =>
    simp only [parseHex4] at h
    cases e1 : hexValue h1 <;> cases e2 : hexValue h2 <;> cases e3 : hexValue h3 <;>
      cases e4 : hexValue h4 <;> simp [e1, e2, e3, e4] at h
    rw [← h.2]
    simp only [List.length_cons]
    omega
  | [], h => simp [parseHex4] at h
  | [_], h => simp [parseHex4] at h
  | [_, _], h => simp [parseHex4] at h
  | [_, _, _], h => simp [parseHex4] at h

theorem parseString_length (fuel : ℕ) : ∀ (t s r : JSString),
    parseString fuel t = some (s, r) → r.length < t.length := by
  induction fuel with
  | zero => intro t s r h; simp [parseString] at h
  | succ fuel ih =>
    intro t s r h
    cases t with
    | nil => simp [parseString] at h
    | cons c cs =>
      cases cs with
      | nil =>
        simp only [parseString] at h
        split_ifs at h with h1 h2 h3
        · simp only [Option.some.injEq, Prod.mk.injEq] at h
          rw [← h.2]
          simp
        · cases hr : parseString fuel [] with
          | none => simp [hr] at h
          | some q =>
            have := ih _ _ _ hr
            simp at this
      | cons d ds =>
        simp only [parseString] at h
        split_ifs at h with h1 h2 h3 h4
        · simp only [Option.some.injEq, Prod.mk.injEq] at h
          rw [← h.2]
          simp
        · cases hh : parseHex4 ds with
          | none => simp [hh] at h
          | some p =>
            obtain ⟨u, rest⟩ := p
            simp only [hh] at h
            cases hr : parseString fuel rest with
            | none => simp [hr] at h
            | some q =>
              obtain ⟨s2, r2⟩ := q
              simp only [hr, Option.some.injEq, Prod.mk.injEq] at h
              have a1 := parseHex4_length hh
              have a2 := ih _ _ _ hr
              rw [← h.2]
              simp only [List.length_cons]
              omega
        · cases hu : unescape d with
          | none => simp [hu] at h
          | some u =>
            simp only [hu] at h
            cases hr : parseString fuel ds with
            | none => simp [hr] at h
            | some q =>
              obtain ⟨s2, r2⟩ := q
              simp only [hr, Option.some.injEq, Prod.mk.injEq] at h
              have a2 := ih _ _ _ hr
              rw [← h.2]
              simp only [List.length_cons]
              omega
        · cases hr : parseString fuel (d :: ds) with
          | none => simp [hr] at h
          | some q =>
            obtain ⟨s2, r2⟩ := q
            simp only [hr, Option.some.injEq, Prod.mk.injEq] at h
            have a2 := ih _ _ _ hr
            rw [← h.2]
            simp only [List.length_cons] at a2 ⊢
            omega

theorem skipWS_cons_length {t cs : JSString} {c : ℕ} (h : skipWS t = c :: cs) :
    cs.length + 1 ≤ t.length := by
  have := skipWS_length t
  rw [h] at this
  simpa using this

theorem parse_length_aux (fuel : ℕ) :
    (∀ t v r, parseValue fuel t = some (v, r) → r.length < t.length) ∧
    (∀ t vs r, parseElements fuel t = some (vs, r) → r.length < t.length) ∧
    (∀ t ms r, parseMembers fuel t = some (ms, r) → r.length < t.length) := by
  induction fuel with
  | zero =>
    refine ⟨?_, ?_, ?_⟩ <;> intro t x r h
    · simp [parseValue] at h
    · simp [parseElements] at h
    · simp [parseMembers] at h
  | succ fuel ih =>
    obtain ⟨ihv, ihe, ihm⟩ := ih
    refine ⟨?_, ?_, ?_⟩
    · intro t v r h
      rw [parseValue] at h
      cases hw : skipWS t with
      | nil => simp [hw] at h
      | cons c cs =>
        have l1 := skipWS_cons_length hw
        simp only [hw] at h
        split_ifs at h with h1 h2 h3 h4 h5 h6
        · cases hs : parseString (cs.length + 1) cs with
          | none => simp [hs] at h
          | some p =>
            obtain ⟨s, r2⟩ := p
            simp only [hs, Option.some.injEq, Prod.mk.injEq] at h
            have := parseString_length _ _ _ _ hs
            rw [← h.2]
            omega
        · cases hw2 : skipWS cs with
          | nil => simp [hw2] at h
          | cons d ds =>
            have l2 := skipWS_cons_length hw2
            simp only [hw2] at h
            split_ifs at h with hd
            · simp only [Option.some.injEq, Prod.mk.injEq] at h
              rw [← h.2]
              omega
            · cases he : parseElements fuel (d :: ds) with
              | none => simp [he] at h
              | some p =>
                obtain ⟨vs, r2⟩ := p
                simp only [he, Option.some.injEq, Prod.mk.injEq] at h
                have := ihe _ _ _ he
                rw [← h.2]
                simp only [List.length_cons] at this
                omega
        · cases hw2 : skipWS cs with
          | nil => simp [hw2] at h
          | cons d ds =>
            have l2 := skipWS_cons_length hw2
            simp only [hw2] at h
            split_ifs at h with hd
            · simp only [Option.some.injEq, Prod.mk.injEq] at h
              rw [← h.2]
              omega
            · cases he : parseMembers fuel (d :: ds) with
              | none => simp [he] at h
              | some p =>
                obtain ⟨ms, r2⟩ := p
                simp only [he, Option.some.injEq, Prod.mk.injEq] at h
                have := ihm _ _ _ he
                rw [← h.2]
                simp only [List.length_cons] at this
                omega
        · cases he : expect [117, 108, 108] cs with
          | none => simp [he] at h
          | some p =>
            simp only [he, Option.some.injEq, Prod.mk.injEq] at h
            have := expect_length _ _ _ he
            rw [← h.2]
            omega
        · cases he : expect [114, 117, 101] cs with
          | none => simp [he] at h
          | some p =>
            simp only [he, Option.some.injEq, Prod.mk.injEq] at h
            have := expect_length _ _ _ he
            rw [← h.2]
            omega
        · cases he : expect [97, 108, 115, 101] cs with
          | none => simp [he] at h
          | some p =>
            simp only [he, Option.some.injEq, Prod.mk.injEq] at h
            have := expect_length _ _ _ he
            rw [← h.2]
            omega
        · cases hn : parseNumber (c :: cs) with
          | none => simp [hn] at h
          | some p =>
            obtain ⟨n, r2⟩ := p
            simp only [hn, Option.some.injEq, Prod.mk.injEq] at h
            have := parseNumber_length hn
            rw [← h.2]
            simp only [List.length_cons] at this
            omega
    · intro t vs r h
      rw [parseElements] at h
      cases hv : parseValue fuel t with
      | none => simp [hv] at h
      | some p =>
        obtain ⟨v, r1⟩ := p
        have l0 := ihv _ _ _ hv
        simp only [hv] at h
        cases hw : skipWS r1 with
        | nil => simp [hw] at h
        | cons c cs =>
          have l1 := skipWS_cons_length hw
          simp only [hw] at h
          split_ifs at h with h1 h2
          · cases he : parseElements fuel cs with
            | none => simp [he] at h
            | some q =>
              obtain ⟨ws, r2⟩ := q
              simp only [he, Option.some.injEq, Prod.mk.injEq] at h
              have := ihe _ _ _ he
              rw [← h.2]
              omega
          · simp only [Option.some.injEq, Prod.mk.injEq] at h
            rw [← h.2]
            omega
    · intro t ms r h
      rw [parseMembers] at h
      cases hw0 : skipWS t with
      | nil => simp [hw0] at h
      | cons q qs =>
        have l0 := skipWS_cons_length hw0
        simp only [hw0] at h
        split_ifs at h with hq
        cases hs : parseString (qs.length + 1) qs with
        | none => simp [hs] at h
        | some p =>
          obtain ⟨k, r0⟩ := p
          have l1 := parseString_length _ _ _ _ hs
          simp only [hs] at h
          cases hw1 : skipWS r0 with
          | nil => simp [hw1] at h
          | cons c0 r1 =>
            have l2 := skipWS_cons_length hw1
            simp only [hw1] at h
            split_ifs at h with hc0
            cases hv : parseValue fuel r1 with
            | none => simp [hv] at h
            | some p =>
              obtain ⟨v, r2⟩ := p
              have l3 := ihv _ _ _ hv
              simp only [hv] at h
              cases hw : skipWS r2 with
              | nil => simp [hw] at h
              | cons c cs =>
                have l4 := skipWS_cons_length hw
                simp only [hw] at h
                split_ifs at h with h1 h2
                · cases he : parseMembers fuel cs with
                  | none => simp [he] at h
                  | some q =>
                    obtain ⟨ws, r3⟩ := q
                    simp only [he, Option.some.injEq, Prod.mk.injEq] at h
                    have := ihm _ _ _ he
                    rw [← h.2]
                    omega
                · simp only [Option.some.injEq, Prod.mk.injEq] at h
                  rw [← h.2]
                  omega

/-- What the parser reads with some fuel it reads with every fuel from twice
the length of the input on: the fuel of `JSON.parse` rejects no text. -/
theorem parse_fuel_aux (fuel : ℕ) :
    (∀ t x, parseValue fuel t = some x →
      ∀ g, 2 * t.length + 1 ≤ g → parseValue g t = some x) ∧
    (∀ t x, parseElements fuel t = some x →
      ∀ g, 2 * t.length + 2 ≤ g → parseElements g t = some x) ∧
    (∀ t x, parseMembers fuel t = some x →
      ∀ g, 2 * t.length + 2 ≤ g → parseMembers g t = some x) := by
  induction fuel with
  | zero =>
    refine ⟨?_, ?_, ?_⟩ <;> intro t x h
    · simp [parseValue] at h
    · simp [parseElements] at h
    · simp [parseMembers] at h
  | succ fuel ih =>
    obtain ⟨ihv, ihe, ihm⟩ := ih
    refine ⟨?_, ?_, ?_⟩
    · intro t x h g hg
      obtain ⟨g, rfl⟩ : ∃ g2, g = g2 + 1 := ⟨g - 1, by omega⟩
      rw [parseValue] at h ⊢
      cases hw : skipWS t with
      | nil => simp [hw] at h
      | cons c cs =>
        have l1 := skipWS_cons_length hw
        simp only [hw] at h ⊢
        split_ifs at h ⊢ with h1 h2 h3 h4 h5 h6
        · exact h
        · cases hw2 : skipWS cs with
          | nil => simp [hw2] at h
          | cons d ds =>
            have l2 := skipWS_cons_length hw2
            simp only [hw2] at h ⊢
            split_ifs at h ⊢ with hd
            · exact h
            · cases he : parseElements fuel (d :: ds) with
              | none => simp [he] at h
              | some p =>
                have := ihe _ _ he g (by simp only [List.length_cons]; omega)
                simp only [he] at h
                simp only [this]
                exact h
        · cases hw2 : skipWS cs with
          | nil => simp [hw2] at h
          | cons d ds =>
            have l2 := skipWS_cons_length hw2
            simp only [hw2] at h ⊢
            split_ifs at h ⊢ with hd
            · exact h
            · cases he : parseMembers fuel (d :: ds) with
              | none => simp [he] at h
              | some p =>
                have := ihm _ _ he g (by simp only [List.length_cons]; omega)
                simp only [he] at h
                simp only [this]
                exact h
        · exact h
        · exact h
        · exact h
        · exact h
    · intro t x h g hg
      obtain ⟨g, rfl⟩ : ∃ g2, g = g2 + 1 := ⟨g - 1, by omega⟩
      rw [parseElements] at h ⊢
      cases hv : parseValue fuel t with
      | none => simp [hv] at h
      | some p =>
        obtain ⟨v, r1⟩ := p
        have l0 := (parse_length_aux fuel).1 _ _ _ hv
        have hv2 := ihv _ _ hv g (by omega)
        simp only [hv] at h
        simp only [hv2]
        cases hw : skipWS r1 with
        | nil => simp [hw] at h
        | cons c cs =>
          have l1 := skipWS_cons_length hw
          simp only [hw] at h ⊢
          split_ifs at h ⊢ with h1 h2
          · cases he : parseElements fuel cs with
            | none => simp [he] at h
            | some q =>
              have := ihe _ _ he g (by omega)
              simp only [he] at h
              simp only [this]
              exact h
          · exact h
    · intro t x h g hg
      obtain ⟨g, rfl⟩ : ∃ g2, g = g2 + 1 := ⟨g - 1, by omega⟩
      rw [parseMembers] at h ⊢
      cases hw0 : skipWS t with
      | nil => simp [hw0] at h
      | cons q qs =>
        have l0 := skipWS_cons_length hw0
        simp only [hw0] at h ⊢
        split_ifs at h ⊢ with hq
        cases hs : parseString (qs.length + 1) qs with
        | none => simp [hs] at h
        | some p =>
          obtain ⟨k, r0⟩ := p
          have l1 := parseString_length _ _ _ _ hs
          simp only [hs] at h ⊢
          cases hw1 : skipWS r0 with
          | nil => simp [hw1] at h
          | cons c0 r1 =>
            have l2 := skipWS_cons_length hw1
            simp only [hw1] at h ⊢
            split_ifs at h ⊢ with hc0
            cases hv : parseValue fuel r1 with
            | none => simp [hv] at h
            | some p =>
              obtain ⟨v, r2⟩ := p
              have l3 := (parse_length_aux fuel).1 _ _ _ hv
              have hv2 := ihv _ _ hv g (by omega)
              simp only [hv] at h
              simp only [hv2]
              cases hw : skipWS r2 with
              | nil => simp [hw] at h
              | cons c cs =>
                have l4 := skipWS_cons_length hw
                simp only [hw] at h ⊢
                split_ifs at h ⊢ with h1 h2
                · cases he : parseMembers fuel cs with
                  | none => simp [he] at h
                  | some q =>
                    have := ihm _ _ he g (by omega)
                    simp only [he] at h
                    simp only [this]
                    exact h
                · exact h

/-- The fuel of `JSON.parse` is enough: whatever `parseValue` reads out of a
text with any fuel, it reads with the fuel `JSON.parse` gives it. -/
theorem parseValue_parseFuel (fuel : ℕ) (text : JSString) (x : JSONValue × JSString)
    (h : parseValue fuel text = some x) : parseValue (parseFuel text) text = some x :=
  (parse_fuel_aux fuel).1 text x h _ (by unfold parseFuel; omega)

/-! ## The handler: basic facts -/

theorem newResponse_405 (rt : Runtime) :
    newResponse rt (some (.text (js "Method not allowed"))) 405 [] = .ok methodNotAllowed := by
  simp [newResponse, isNullBodyStatus, hasHeader, methodNotAllowed]

theorem catchBlock_eq (rt : Runtime) (e : JSError) :
    catchBlock rt e = .ok (errorResponse e.message) := by
  have h : hasHeader (js "Content-Type") [(js "Content-Type", js "application/json")] = true := by
    simp [hasHeader]
  simp [catchBlock, newResponse, isNullBodyStatus, h, errorResponse]

theorem newResponse_relay (rt : Runtime) (r : UpstreamResponse) (h : Constructible r) :
    newResponse rt (r.body.map .stream) r.status r.headers = .ok (relayed r) := by
  obtain ⟨h1, h2, h3⟩ := h
  unfold newResponse
  rw [if_neg (by omega)]
  cases hb : r.body with
  | none => simp [relayed, hb]
  | some b =>
    have := h3 (by simp [hb])
    simp [relayed, hb, this]

theorem fetch_post_ok (rt : Runtime) (request : Request) (hm : request.method = js "POST")
    (r : Response) (tr : List Event) (h : tryBlock rt request = (.ok r, tr)) :
    fetch rt request = (.ok r, tr) := by
  simp [fetch, hm, h]

theorem fetch_post_error (rt : Runtime) (request : Request) (hm : request.method = js "POST")
    (e : JSError) (tr : List Event) (h : tryBlock rt request = (.error e, tr)) :
    fetch rt request = (.ok (errorResponse e.message), tr) := by
  simp [fetch, hm, h, catchBlock_eq]

theorem tryBlock_json_error (rt : Runtime) (request : Request) (e : JSError)
    (h : request.json rt = .error e) : tryBlock rt request = (.error e, [.readBody]) := by
  simp [tryBlock, h]

theorem tryBlock_fetch_error (rt : Runtime) (request : Request) (v : JSONValue) (e : JSError)
    (h : request.json rt = .ok v) (hf : rt.fetch (forwardCall v) = .error e) :
    tryBlock rt request = (.error e, [.readBody, .fetch (forwardCall v)]) := by
  simp [tryBlock, h, hf]

theorem tryBlock_fetch_ok (rt : Runtime) (request : Request) (v : JSONValue)
    (r : UpstreamResponse) (h : request.json rt = .ok v) (hf : rt.fetch (forwardCall v) = .ok r) :
    tryBlock rt request =
      (newResponse rt (r.body.map .stream) r.status r.headers,
        [.readBody, .fetch (forwardCall v)]) := by
  simp [tryBlock, h, hf]

theorem postRating_json (rt : Runtime) : postRating.json rt = .ok ratingValue := by
  have h : js "\x7b\"rating\":5\x7d" = [123, 34, 114, 97, 116, 105, 110, 103, 34, 58, 53, 125] := by
    decide
  have h2 : js "rating" = [114, 97, 116, 105, 110, 103] := by decide
  have h3 : parseUnsigned [53, 125] = some (5, [125]) := by
    simp [parseUnsigned, takeDigits, isDigit, parseFraction, parseExponent, natOfDigits]
  simp [Request.json, postRating, ratingValue, h, h2, JSON.parse, parseFuel, parseValue,
    parseMembers, skipWS, isWhiteSpace, parseString, parseNumber, h3, buildObject, setProp,
    hasKey, arrayIndex, takeDigits, isDigit]

theorem postRatingWithCredentials_json (rt : Runtime) :
    postRatingWithCredentials.json rt = .ok ratingValue := by
  have h : js " \x7b \"rating\" : 5 \x7d " =
      [32, 123, 32, 34, 114, 97, 116, 105, 110, 103, 34, 32, 58, 32, 53, 32, 125, 32] := by
    decide
  have h2 : js "rating" = [114, 97, 116, 105, 110, 103] := by decide
  have h3 : parseUnsigned [53, 32, 125, 32] = some (5, [32, 125, 32]) := by
    simp [parseUnsigned, takeDigits, isDigit, parseFraction, parseExponent, natOfDigits]
  simp [Request.json, postRatingWithCredentials, ratingValue, h, h2, JSON.parse, parseFuel,
    parseValue, parseMembers, skipWS, isWhiteSpace, parseString, parseNumber, h3, buildObject,
    setProp, hasKey, arrayIndex, takeDigits, isDigit]

theorem postNotJson_json (rt : Runtime) :
    postNotJson.json rt =
      .error { name := js "SyntaxError", message := rt.parseErrorMessage (js "not-json") } := by
  have h : js "not-json" = [110, 111, 116, 45, 106, 115, 111, 110] := by decide
  have h1 : JSON.parse [110, 111, 116, 45, 106, 115, 111, 110] = none := by
    simp [JSON.parse, parseFuel, parseValue, skipWS, isWhiteSpace, expect]
  simp [Request.json, postNotJson, h, h1]

/-! ## The handler: traces and the error body -/

theorem parse_rating : JSON.parse (js "\x7b\"rating\":5\x7d") = some ratingValue := by
  have h := postRating_json sampleRuntime
  simp only [Request.json, postRating] at h
  cases hp : JSON.parse (js "\x7b\"rating\":5\x7d") with
  | none => simp [hp] at h
  | some v =>
    simp only [hp, Except.ok.injEq] at h
    rw [h]

theorem allFinite_ratingValue : allFinite ratingValue = true := by
  simp [ratingValue, allFinite, allFiniteMembers, numberValueFor_five]

/-- The body of the error response is JSON text for the object `{error: m}`. -/
theorem parse_errorBody (m : JSString) :
    JSON.parse (JSON.stringify (.object [(js "error", .string m)])) =
      some (.object [(js "error", .string m)]) := by
  apply parse_stringify_of_wellFormed
  · simp [WellFormed, WellFormedMembers, Canonical, CanonicalKeys]
  · simp [allFinite, allFiniteMembers]

theorem fetch_of_json_error (rt : Runtime) (request : Request) (e : JSError)
    (hm : request.method = js "POST") (hj : request.json rt = .error e) :
    fetch rt request = (.ok (errorResponse e.message), [.readBody]) :=
  fetch_post_error rt request hm e _ (tryBlock_json_error rt request e hj)

theorem fetch_of_fetch_error (rt : Runtime) (request : Request) (v : JSONValue) (e : JSError)
    (hm : request.method = js "POST") (hj : request.json rt = .ok v)
    (hf : rt.fetch (forwardCall v) = .error e) :
    fetch rt request = (.ok (errorResponse e.message), [.readBody, .fetch (forwardCall v)]) :=
  fetch_post_error rt request hm e _ (tryBlock_fetch_error rt request v e hj hf)

theorem fetch_of_fetch_ok (rt : Runtime) (request : Request) (v : JSONValue)
    (r : UpstreamResponse) (hm : request.method = js "POST") (hj : request.json rt = .ok v)
    (hf : rt.fetch (forwardCall v) = .ok r) :
    fetch rt request =
      (match newResponse rt (r.body.map .stream) r.status r.headers with
        | .ok response => .ok response
        | .error e => .ok (errorResponse e.message),
        [.readBody, .fetch (forwardCall v)]) := by
  have ht := tryBlock_fetch_ok rt request v r hj hf
  cases hn : newResponse rt (r.body.map .stream) r.status r.headers with
  | ok response =>
    rw [hn] at ht
    exact fetch_post_ok rt request hm _ _ ht
  | error e =>
    rw [hn] at ht
    exact fetch_post_error rt request hm _ _ ht

theorem trace_of_json_ok (rt : Runtime) (request : Request) (v : JSONValue)
    (hm : request.method = js "POST") (hj : request.json rt = .ok v) :
    (fetch rt request).2 = [.readBody, .fetch (forwardCall v)] := by
  cases hf : rt.fetch (forwardCall v) with
  | error e => rw [fetch_of_fetch_error rt request v e hm hj hf]
  | ok r => rw [fetch_of_fetch_ok rt request v r hm hj hf]

theorem trace_of_not_post (rt : Runtime) (request : Request)
    (hm : request.method ≠ js "POST") : (fetch rt request).2 = [] := by
  simp [fetch, hm]

theorem outcome_ok (rt : Runtime) (request : Request) :
    ∃ r, (fetch rt request).1 = .ok r := by
  by_cases hm : request.method = js "POST"
  · cases hj : request.json rt with
    | error e => exact ⟨_, by rw [fetch_of_json_error rt request e hm hj]⟩
    | ok v =>
      cases hf : rt.fetch (forwardCall v) with
      | error e => exact ⟨_, by rw [fetch_of_fetch_error rt request v e hm hj hf]⟩
      | ok r =>
        rw [fetch_of_fetch_ok rt request v r hm hj hf]
        cases newResponse rt (r.body.map .stream) r.status r.headers with
        | ok response => exact ⟨response, rfl⟩
        | error e => exact ⟨_, rfl⟩
  · exact ⟨methodNotAllowed, by simp [fetch, hm, newResponse_405]⟩

theorem upstreamURL_suffix : js "/api/feedback" <:+ upstreamURL :=
  ⟨js "http://51.38.54.50:8000", by decide⟩

theorem constructible_response200 : Constructible response200 :=
  ⟨by decide, by decide, fun _ => by decide⟩

/-! ## Scenario 2, evaluated -/

theorem numberValueFor_six : numberValueFor 6 = .finite 6 := by
  have := isDouble_natCast 6 (by norm_num)
  simpa [IsDouble] using this

theorem candidate_five : candidate 5 1 = some (5, 0) := by
  have hlog : Int.log 10 (5 : ℚ) = 0 := by
    have h := Int.log_natCast (R := ℚ) 10 5
    simp only [Nat.cast_ofNat] at h
    rw [h, Nat.log_of_lt (by norm_num)]
    rfl
  have h5 : readsBack 5 5 0 = true := by
    simp [readsBack, numberValueFor_five]
  have h6 : readsBack 5 6 0 = false := by
    simp [readsBack, numberValueFor_six]
  unfold candidate
  simp only [hlog]
  norm_num
  simp [h5, h6]

theorem toString_five : Number.toString (.finite 5) = [53] := by
  have hs : shortestDigits 5 = (5, 0) := by
    simp [shortestDigits, shortestFrom, candidate_five, stripZeros]
  have hd : decimalDigits 5 = [5] := by decide
  simp only [Number.toString]
  rw [if_neg (by norm_num), if_neg (by norm_num)]
  simp [positiveToString, hs, hd, layoutDigits, digitUnits]

/-- The body the handler forwards for the inbound body `{"rating":5}` is the
text `{"rating":5}`. -/
theorem stringify_ratingValue : JSON.stringify ratingValue = js "\x7b\"rating\":5\x7d" := by
  have h : js "\x7b\"rating\":5\x7d" =
      [123, 34, 114, 97, 116, 105, 110, 103, 34, 58, 53, 125] := by decide
  have h2 : js "rating" = [114, 97, 116, 105, 110, 103] := by decide
  rw [h]
  simp [JSON.stringify, ratingValue, serialize, serializeMembers, numberValueFor_five,
    toString_five, QuoteJSONString, h2, quoteUnits, escapeUnit, isLeadSurrogate,
    isTrailSurrogate]

/-! ## The claims -/

/-- C1: for every request whose method is not exactly `"POST"`, whatever its
body and whatever the upstream would answer, the handler returns the response
with status 405 and body `Method not allowed`, and its trace is empty: it
neither reads the body nor calls the upstream. -/
theorem method_not_allowed (rt : Runtime) (request : Request)
    (h : request.method ≠ js "POST") :
    fetch rt request = (.ok methodNotAllowed, []) ∧
      methodNotAllowed.status = 405 ∧
      methodNotAllowed.body = some (.text (js "Method not allowed")) := by
  refine ⟨?_, rfl, rfl⟩
  simp [fetch, h, newResponse_405]

/-- Witness of C1: scenario 1, `GET /`. -/
theorem method_not_allowed_witness :
    getRequest.method ≠ js "POST" ∧
      (fetch sampleRuntime getRequest = (.ok methodNotAllowed, []) ∧
        methodNotAllowed.status = 405 ∧
        methodNotAllowed.body = some (.text (js "Method not allowed"))) :=
  ⟨by decide, method_not_allowed sampleRuntime getRequest (by decide)⟩

/-- C2 as stated fails: the POST of `{"rating":5}` parses, the upstream answers
with status 600, and the handler does not relay it: `new Response` rejects the
status and the handler returns its own 500 error response. -/
theorem relay_fails_at_status_600 :
    postRating.method = js "POST" ∧
      postRating.json (sampleRuntimeWith upstream600) = .ok ratingValue ∧
      (sampleRuntimeWith upstream600).fetch (forwardCall ratingValue) = .ok response600 ∧
      (fetch (sampleRuntimeWith upstream600) postRating).1 =
        .ok (errorResponse (js "status out of range")) ∧
      (errorResponse (js "status out of range")).status ≠ response600.status := by
  refine ⟨rfl, postRating_json _, rfl, ?_, by decide⟩
  rw [fetch_of_fetch_ok (sampleRuntimeWith upstream600) postRating ratingValue response600 rfl
    (postRating_json _) rfl]
  rfl

/-- C2, amended: for every POST request whose body parses as JSON and every
upstream response that `new Response` accepts (status in 200..599, no body
with a null body status), the handler returns the upstream's status, headers
and body unchanged; so a 4xx or 5xx of the upstream is relayed as it is. -/
theorem relay_upstream_response (rt : Runtime) (request : Request) (v : JSONValue)
    (response : UpstreamResponse) (hm : request.method = js "POST")
    (hj : request.json rt = .ok v) (hf : rt.fetch (forwardCall v) = .ok response)
    (hc : Constructible response) :
    fetch rt request = (.ok (relayed response), [.readBody, .fetch (forwardCall v)]) ∧
      (relayed response).status = response.status ∧
      (relayed response).headers = response.headers ∧
      (relayed response).body = response.body.map .stream := by
  refine ⟨?_, rfl, rfl, rfl⟩
  rw [fetch_of_fetch_ok rt request v response hm hj hf, newResponse_relay rt response hc]

/-- Witness of C2 amended: scenario 2, the upstream answers 200 `{"ok":true}`. -/
theorem relay_upstream_response_witness :
    postRating.method = js "POST" ∧
      postRating.json sampleRuntime = .ok ratingValue ∧
      sampleRuntime.fetch (forwardCall ratingValue) = .ok response200 ∧
      Constructible response200 ∧
      (fetch sampleRuntime postRating =
          (.ok (relayed response200), [.readBody, .fetch (forwardCall ratingValue)]) ∧
        (relayed response200).status = response200.status ∧
        (relayed response200).headers = response200.headers ∧
        (relayed response200).body = response200.body.map .stream) :=
  ⟨rfl, postRating_json _, rfl, constructible_response200,
    relay_upstream_response sampleRuntime postRating ratingValue response200 rfl
      (postRating_json _) rfl constructible_response200⟩

/-- C3: for every POST request whose body read or parse raises an error with
message `m`, the handler returns status 500 with the header
`Content-Type: application/json` and a body that is JSON text for the object
`{error: m}`, and it makes no outbound call. -/
theorem parse_failure (rt : Runtime) (request : Request) (e : JSError)
    (hm : request.method = js "POST") (hj : request.json rt = .error e) :
    fetch rt request = (.ok (errorResponse e.message), [.readBody]) ∧
      outboundCalls (fetch rt request).2 = [] ∧
      (errorResponse e.message).status = 500 ∧
      (errorResponse e.message).headers = [(js "Content-Type", js "application/json")] ∧
      ∃ text, (errorResponse e.message).body = some (.text text) ∧
        JSON.parse text = some (.object [(js "error", .string e.message)]) := by
  have h := fetch_of_json_error rt request e hm hj
  refine ⟨h, ?_, rfl, rfl, _, rfl, parse_errorBody e.message⟩
  rw [h]
  rfl

/-- Witness of C3: scenario 3, a POST with the body `not-json`. -/
theorem parse_failure_witness :
    postNotJson.method = js "POST" ∧
      postNotJson.json sampleRuntime =
        .error { name := js "SyntaxError", message := js "Unexpected token" } ∧
      (fetch sampleRuntime postNotJson =
          (.ok (errorResponse (js "Unexpected token")), [.readBody]) ∧
        outboundCalls (fetch sampleRuntime postNotJson).2 = [] ∧
        (errorResponse (js "Unexpected token")).status = 500 ∧
        (errorResponse (js "Unexpected token")).headers =
          [(js "Content-Type", js "application/json")] ∧
        ∃ text, (errorResponse (js "Unexpected token")).body = some (.text text) ∧
          JSON.parse text = some (.object [(js "error", .string (js "Unexpected token"))])) :=
  ⟨rfl, postNotJson_json sampleRuntime,
    parse_failure sampleRuntime postNotJson
      { name := js "SyntaxError", message := js "Unexpected token" } rfl
      (postNotJson_json sampleRuntime)⟩

/-- C4: for every POST request with a valid JSON body, if the upstream call
raises an error, the handler returns status 500 with the header
`Content-Type: application/json` and a body that is JSON text for the object
`{error: m}`, `m` the error's message; a request whose body parse raises an
error with the same message gets the same response. -/
theorem upstream_failure (rt : Runtime) (request : Request) (v : JSONValue) (e : JSError)
    (hm : request.method = js "POST") (hj : request.json rt = .ok v)
    (hf : rt.fetch (forwardCall v) = .error e) :
    fetch rt request = (.ok (errorResponse e.message), [.readBody, .fetch (forwardCall v)]) ∧
      (errorResponse e.message).status = 500 ∧
      (errorResponse e.message).headers = [(js "Content-Type", js "application/json")] ∧
      (∃ text, (errorResponse e.message).body = some (.text text) ∧
        JSON.parse text = some (.object [(js "error", .string e.message)])) ∧
      ∀ (other : Request) (e2 : JSError), other.method = js "POST" →
        other.json rt = .error e2 → e2.message = e.message →
        (fetch rt other).1 = (fetch rt request).1 := by
  have h := fetch_of_fetch_error rt request v e hm hj hf
  refine ⟨h, rfl, rfl, ⟨_, rfl, parse_errorBody e.message⟩, ?_⟩
  intro other e2 hm2 hj2 hmsg
  rw [h, fetch_of_json_error rt other e2 hm2 hj2, hmsg]

/-- Witness of C4: scenario 4, the upstream cannot be reached. -/
theorem upstream_failure_witness :
    postRating.method = js "POST" ∧
      postRating.json (sampleRuntimeWith unreachableUpstream) = .ok ratingValue ∧
      (sampleRuntimeWith unreachableUpstream).fetch (forwardCall ratingValue) =
        .error { name := js "TypeError", message := js "Network connection lost" } ∧
      fetch (sampleRuntimeWith unreachableUpstream) postRating =
        (.ok (errorResponse (js "Network connection lost")),
          [.readBody, .fetch (forwardCall ratingValue)]) :=
  ⟨rfl, postRating_json _, rfl,
    (upstream_failure (sampleRuntimeWith unreachableUpstream) postRating ratingValue
      { name := js "TypeError", message := js "Network connection lost" } rfl
      (postRating_json _) rfl).1⟩

/-- C5: for every POST request whose body parses to the JSON value `v`, the
handler makes the one outbound call `forwardCall v`: method `POST`, the fixed
URL (which ends in `/api/feedback`), exactly the header
`Content-Type: application/json`, and the body `JSON.stringify v`. -/
theorem forwarded_request (rt : Runtime) (request : Request) (v : JSONValue)
    (hm : request.method = js "POST") (hj : request.json rt = .ok v) :
    outboundCalls (fetch rt request).2 = [forwardCall v] ∧
      (forwardCall v).method = js "POST" ∧
      (forwardCall v).url = js "http://51.38.54.50:8000/api/feedback" ∧
      js "/api/feedback" <:+ (forwardCall v).url ∧
      (forwardCall v).headers = [(js "Content-Type", js "application/json")] ∧
      (forwardCall v).body = JSON.stringify v := by
  refine ⟨?_, rfl, rfl, upstreamURL_suffix, rfl, rfl⟩
  rw [trace_of_json_ok rt request v hm hj]
  rfl

/-- Witness of C5: scenario 2; the forwarded body is the text `{"rating":5}`. -/
theorem forwarded_request_witness :
    postRating.method = js "POST" ∧
      postRating.json sampleRuntime = .ok ratingValue ∧
      outboundCalls (fetch sampleRuntime postRating).2 = [forwardCall ratingValue] ∧
      (forwardCall ratingValue).body = js "\x7b\"rating\":5\x7d" :=
  ⟨rfl, postRating_json _,
    (forwarded_request sampleRuntime postRating ratingValue rfl (postRating_json _)).1,
    stringify_ratingValue⟩

/-- C6 as stated fails: the text `1e400` is valid JSON, its value is the
Number `+∞`, `JSON.stringify` writes `null` for it, and parsing that gives
`null`, another value. -/
theorem roundtrip_fails_at_1e400 :
    JSON.parse (js "1e400") = some (.number (.infinity false)) ∧
      JSON.stringify (.number (.infinity false)) = js "null" ∧
      JSON.parse (JSON.stringify (.number (.infinity false))) = some .null ∧
      JSONValue.null ≠ .number (.infinity false) := by
  refine ⟨parse_1e400, by decide, rfl, ?_⟩
  intro h
  cases h

/-- C6, amended: for every valid JSON text `b` whose value holds no infinite
number (no number literal of `b` overflows the doubles), parsing the outbound
body gives the value of `b` again: `parse (serialize (parse b)) = parse b`,
for every shape of value. -/
theorem parse_stringify_parse (b : JSString) (v : JSONValue) (h : JSON.parse b = some v)
    (hfin : allFinite v = true) : JSON.parse (JSON.stringify v) = JSON.parse b := by
  rw [h]
  exact parse_stringify_of_wellFormed v (parse_wellFormed h) hfin

/-- Witness of C6 amended: the body `{"rating":5}`. -/
theorem parse_stringify_parse_witness :
    JSON.parse (js "\x7b\"rating\":5\x7d") = some ratingValue ∧ allFinite ratingValue = true ∧
      JSON.parse (JSON.stringify ratingValue) = JSON.parse (js "\x7b\"rating\":5\x7d") :=
  ⟨parse_rating, allFinite_ratingValue,
    parse_stringify_parse (js "\x7b\"rating\":5\x7d") ratingValue parse_rating allFinite_ratingValue⟩

/-- C7: for every request the handler makes at most one outbound call, and
exactly one if and only if the method is `POST` and the body parses as JSON;
after a failed upstream call the calls made are that one call: no retry. -/
theorem at_most_one_call (rt : Runtime) (request : Request) :
    (outboundCalls (fetch rt request).2).length ≤ 1 ∧
      ((outboundCalls (fetch rt request).2).length = 1 ↔
        (request.method = js "POST" ∧ ∃ v, request.json rt = .ok v)) ∧
      ∀ (v : JSONValue) (e : JSError), request.method = js "POST" →
        request.json rt = .ok v → rt.fetch (forwardCall v) = .error e →
        outboundCalls (fetch rt request).2 = [forwardCall v] := by
  have hlast : ∀ (v : JSONValue), request.method = js "POST" → request.json rt = .ok v →
      outboundCalls (fetch rt request).2 = [forwardCall v] := by
    intro v hm hj
    rw [trace_of_json_ok rt request v hm hj]
    rfl
  by_cases hm : request.method = js "POST"
  · cases hj : request.json rt with
    | error e =>
      have h := fetch_of_json_error rt request e hm hj
      refine ⟨by rw [h]; simp [outboundCalls], ?_, fun v e2 _ hj2 _ => by simp at hj2⟩
      rw [h]
      simp [outboundCalls]
    | ok v =>
      have h := hlast v hm hj
      refine ⟨by rw [h]; simp, ?_, fun w _ _ hj2 _ => ?_⟩
      · rw [h]
        simp [hm]
      · rw [h]
        simp only [Except.ok.injEq] at hj2
        rw [hj2]
  · have h := trace_of_not_post rt request hm
    refine ⟨by rw [h]; simp [outboundCalls], ?_, fun v e hm2 _ _ => absurd hm2 hm⟩
    rw [h]
    simp [outboundCalls, hm]

/-- C8: the handler is total: for every request and every behaviour of the
upstream it returns a response, no error escapes; and every error raised by
the body parse, by the upstream call or by the construction of the relayed
response is answered with the status-500 response carrying its message. -/
theorem handler_total (rt : Runtime) (request : Request) :
    (∃ response, (fetch rt request).1 = .ok response) ∧
      (request.method = js "POST" →
        (∀ e, request.json rt = .error e →
          (fetch rt request).1 = .ok (errorResponse e.message)) ∧
        (∀ v e, request.json rt = .ok v → rt.fetch (forwardCall v) = .error e →
          (fetch rt request).1 = .ok (errorResponse e.message)) ∧
        (∀ v r e, request.json rt = .ok v → rt.fetch (forwardCall v) = .ok r →
          newResponse rt (r.body.map .stream) r.status r.headers = .error e →
          (fetch rt request).1 = .ok (errorResponse e.message))) := by
  refine ⟨outcome_ok rt request, fun hm => ⟨?_, ?_, ?_⟩⟩
  · intro e hj
    rw [fetch_of_json_error rt request e hm hj]
  · intro v e hj hf
    rw [fetch_of_fetch_error rt request v e hm hj hf]
  · intro v r e hj hf hn
    rw [fetch_of_fetch_ok rt request v r hm hj hf, hn]

/-- C10: the outbound request depends only on the parsed body: two POST
requests whose bodies parse to the same JSON value cause the same outbound
calls, whatever their headers and URLs, and the call is `forwardCall v`, in
which no inbound header and no part of the inbound URL occurs. -/
theorem outbound_depends_on_body_only (rt : Runtime) (first second : Request) (v : JSONValue)
    (h1 : first.method = js "POST") (h2 : second.method = js "POST")
    (j1 : first.json rt = .ok v) (j2 : second.json rt = .ok v) :
    outboundCalls (fetch rt first).2 = outboundCalls (fetch rt second).2 ∧
      outboundCalls (fetch rt first).2 = [forwardCall v] := by
  rw [trace_of_json_ok rt first v h1 j1, trace_of_json_ok rt second v h2 j2]
  exact ⟨rfl, rfl⟩

/-- Witness of C10: the same body sent plainly and sent to another path with
an `Authorization` and a `Cookie` header. -/
theorem outbound_depends_on_body_only_witness :
    postRating.method = js "POST" ∧ postRatingWithCredentials.method = js "POST" ∧
      postRating.json sampleRuntime = .ok ratingValue ∧
      postRatingWithCredentials.json sampleRuntime = .ok ratingValue ∧
      postRating.headers ≠ postRatingWithCredentials.headers ∧
      postRating.url ≠ postRatingWithCredentials.url ∧
      (outboundCalls (fetch sampleRuntime postRating).2 =
          outboundCalls (fetch sampleRuntime postRatingWithCredentials).2 ∧
        outboundCalls (fetch sampleRuntime postRating).2 = [forwardCall ratingValue]) :=
  ⟨rfl, rfl, postRating_json _, postRatingWithCredentials_json _, by decide, by decide,
    outbound_depends_on_body_only sampleRuntime postRating postRatingWithCredentials
      ratingValue rfl rfl (postRating_json _) (postRatingWithCredentials_json _)⟩

end FeedbackProxy
